import Mathlib

/-!
Verification of the timeseries cache / request coalescer
(dashboard/dashboard/spa/timeseries-cache-request.js).

The JavaScript source is shallowly embedded in Lean:
* numbers are modelled as `Int` (revisions and timestamps are integers;
  `Number.MAX_SAFE_INTEGER` is a finite sentinel),
* JS objects holding data rows are modelled as association lists
  `List (String × Int)` with first-match lookup,
* JS `Set`s are modelled as insertion-ordered duplicate-free lists,
* the IndexedDB `ranges` object store is modelled as an association list
  from column name to a list of ranges,
* asynchronous control flow (the async generator `generateResults`, the
  fetch retry loop) is modelled as pure functions over explicit inputs:
  the environment's successive HTTP responses are an input function, and
  the completion-ordered slice responses are an input list.

The class `Range` (range.js) is part of this repository but its source is
not available here (only its unit tests are); its operations are modelled
from the spec (and cross-checked against the unit tests), see the
`Modelled from the spec:` doc comments below.
-/

namespace Catapult

/-- A JS `Set` insertion: append if not already present (JS `Set.prototype.add`
keeps insertion order and ignores duplicates). -/
def jsSetAdd [DecidableEq α] (l : List α) (x : α) : List α :=
  if x ∈ l then l else l ++ [x]

/-- `new Set(list)`: duplicates dropped, first occurrence kept, order kept. -/
def jsSetOfList [DecidableEq α] (l : List α) : List α :=
  l.foldl jsSetAdd []

/-- First-match lookup in an association list, as `IDBObjectStore.get` /
`Map.prototype.get` over string keys. -/
def lookupMap (m : List (String × α)) (k : String) : Option α :=
  (m.find? (fun p => p.1 = k)).map (fun p => p.2)

/-- `Map.prototype.set` / `IDBObjectStore.put`: replace the binding if the key
is present, else append it. -/
def mapSet (m : List (String × α)) (k : String) (v : α) : List (String × α) :=
  if (m.find? (fun p => p.1 = k)).isSome then
    m.map (fun p => if p.1 = k then (k, v) else p)
  else m ++ [(k, v)]

/-- Modelled from the spec: the class `Range` of range.js (absent from the
available sources; §4.A of the spec and the unit tests in
dashboard/spa/range-test.html describe it).  A closed numeric interval, with
an empty sentinel. -/
inductive JSRange where
  | empty : JSRange
  | intv (lo hi : Int) : JSRange
deriving DecidableEq, Repr

namespace JSRange

/-- Modelled from the spec: `Range.prototype.isEmpty`. -/
def isEmpty : JSRange → Bool
  | .empty => true
  | .intv _ _ => false

/-- Modelled from the spec: `Range.fromExplicitRange(min, max)`. -/
def fromExplicitRange (lo hi : Int) : JSRange := .intv lo hi

/-- Modelled from the spec: `Range.prototype.addValue(v)` extends min/max
monotonically; an empty range becomes `[v, v]`. -/
def addValue : JSRange → Int → JSRange
  | .empty, v => .intv v v
  | .intv lo hi, v => .intv (min lo v) (max hi v)

/-- Modelled from the spec: `Range.prototype.duration` is `max - min`, or 0
for the empty range. -/
def duration : JSRange → Int
  | .empty => 0
  | .intv lo hi => hi - lo

/-- Modelled from the spec: `Range.prototype.findIntersection(r)` returns
`[max(mins), min(maxes)]`, or the empty range if either operand is empty or
the bounds cross. -/
def findIntersection : JSRange → JSRange → JSRange
  | .empty, _ => .empty
  | _, .empty => .empty
  | .intv a b, .intv c d =>
      if min b d < max a c then .empty else .intv (max a c) (min b d)

/-- Modelled from the spec: `Range.findDifference(a, b)` returns `a \ b` as a
list of 0, 1 or 2 closed ranges (the spec's §4.A truth table; leftover pieces
share their boundary points with `b`). -/
def findDifference (a b : JSRange) : List JSRange :=
  match a, b with
  | .empty, _ => []
  | _, .empty => [a]
  | .intv al ah, .intv bl bh =>
      if al < bl then
        .intv al (min ah bl) :: (if bh < ah then [.intv bh ah] else [])
      else
        if bh < ah then [.intv (max al bh) ah] else []

/-- Helper for `mergeIntoArray`: insert `[lo, hi]` into a sorted list of
ranges, coalescing overlapping or adjacent ranges. -/
def mergeGo (lo hi : Int) : List JSRange → List JSRange
  | [] => [.intv lo hi]
  | .empty :: rest => mergeGo lo hi rest
  | .intv a b :: rest =>
      if b < lo then .intv a b :: mergeGo lo hi rest
      else if hi < a then .intv lo hi :: .intv a b :: rest
      else mergeGo (min lo a) (max hi b) rest

/-- Modelled from the spec: `Range.prototype.mergeIntoArray(sortedRanges)`
returns the sorted coalesced union of the ranges and the receiver; adjacent
or overlapping ranges merge. -/
def mergeIntoArray (self : JSRange) (sorted : List JSRange) : List JSRange :=
  match self with
  | .empty => sorted
  | .intv lo hi => mergeGo lo hi sorted

/-- Membership of a number in a range (closed interval semantics). -/
def mem (r : JSRange) (x : Int) : Bool :=
  match r with
  | .empty => false
  | .intv lo hi => decide (lo ≤ x) && decide (x ≤ hi)

end JSRange

/-- A data row: a JS object mapping field names to values.  Values are
modelled as integers (the claims under verification only inspect the numeric
`revision` field and field presence). -/
abbrev Row := List (String × Int)

/-- JS property read `r[k]`: `none` models `undefined`. -/
def jsGet (r : Row) (k : String) : Option Int :=
  (r.find? (fun p => p.1 = k)).map (fun p => p.2)

/-- JS property read defaulted to 0 (used where the source only reads fields
that are present, e.g. `datum.revision`). -/
def keyD (r : Row) (k : String) : Int :=
  (jsGet r k).getD 0

/-- JS `delete r[k]`. -/
def deleteField (r : Row) (k : String) : Row :=
  r.filter (fun p => p.1 ≠ k)

/-- JS `Object.assign(a, b)`: fields of `b` override fields of `a`; keys kept
in `a`'s order, new keys of `b` appended. -/
def objAssign (a b : Row) : Row :=
  a.map (fun p => (p.1, (jsGet b p.1).getD p.2)) ++
    b.filter (fun p => jsGet a p.1 = none)

/-- `normalize(table, columnNames)` (timeseries-cache-request.js line 33):
turns each positional row of a 2-D table into a row object keyed by the
column names. -/
def normalize (table : List (List Int)) (columnNames : List String) : List Row :=
  table.map (fun row =>
    (List.range columnNames.length).map
      (fun i => (columnNames.getD i "", row.getD i 0)))

/-- `getKey(ary[i])`, with 0 standing in for an out-of-bounds read (the loop
below only reads in bounds). -/
def keyAt (ary : List α) (getKey : α → Int) (i : Nat) : Int :=
  ((ary.get? i).map getKey).getD 0

/-- The binary-search loop of `findLowIndexInSortedArray` (lines 61-79).
`low : Nat` only grows from 0; `high : Int` may reach -1 as in the JS code;
`hit` is the JS `hitPos` (-1 when unset).  `fuel` bounds the iteration count
(the caller passes more fuel than the loop can consume, see
`flisaLoop_correct`). -/
def flisaLoop (ary : List α) (getKey : α → Int) (loVal : Int) :
    Nat → Nat → Int → Int → Nat
  | 0, low, _, hit => if hit = -1 then low else hit.toNat
  | fuel + 1, low, high, hit =>
      if (low : Int) ≤ high then
        let i : Nat := (low + high.toNat) / 2
        let c : Int := keyAt ary getKey i - loVal
        if c < 0 then flisaLoop ary getKey loVal fuel (i + 1) high hit
        else if 0 < c then flisaLoop ary getKey loVal fuel low ((i : Int) - 1) hit
        else flisaLoop ary getKey loVal fuel low ((i : Int) - 1) (i : Int)
      else if hit = -1 then low else hit.toNat

/-- `findLowIndexInSortedArray(ary, getKey, loVal)` (lines 58-80).  NOTE: the
source really does return 1 (not 0) for an empty array, see line 59. -/
def findLowIndexInSortedArray (ary : List α) (getKey : α → Int) (loVal : Int) :
    Nat :=
  if ary.length = 0 then 1
  else flisaLoop ary getKey loVal (ary.length + 1) 0 ((ary.length : Int) - 1) (-1)

/-- One row of `mergeObjectArrays` (lines 84-98): bisect `merged` for the
row's key; append, field-merge, or splice accordingly. -/
def mergeRow (key : String) (merged : List Row) (obj : Row) : List Row :=
  let index := findLowIndexInSortedArray merged (fun e => keyD e key) (keyD obj key)
  if merged.length ≤ index then merged ++ [obj]
  else
    let entry := merged.getD index []
    if keyD entry key = keyD obj key then
      merged.set index (objAssign entry obj)
    else
      merged.take index ++ obj :: merged.drop index

/-- `mergeObjectArrays(key, merged, ...arrays)` (lines 82-100), in-place
mutation of `merged` modelled as a fold returning the final array. -/
def mergeObjectArrays (key : String) (merged : List Row)
    (arrays : List (List Row)) : List Row :=
  arrays.foldl (fun m objects => objects.foldl (mergeRow key) m) merged

/-- A pending remote fetch (`TimeseriesSlice`, line 117): a revision
sub-range and a column set (identity/header/url fields are constant per
request and omitted). -/
structure Slice where
  revisionRange : JSRange
  columns : List String
deriving DecidableEq, Repr

/-- The inner break-loop of `getAvailableRangeByCol_` (lines 507-514): the
first stored range whose intersection with the request range is non-empty,
mapped to that intersection. -/
def firstOverlap (revisionRange : JSRange) : List JSRange → Option JSRange
  | [] => none
  | d :: rest =>
      let i := d.findIntersection revisionRange
      if i.isEmpty then firstOverlap revisionRange rest else some i

/-- `getAvailableRangeByCol_(rangesByCol)` (lines 502-517).  `rangesByCol`
is the map produced by `getRanges_`: requested column name to the stored
range-dict list (`none` when the store had no entry). -/
def getAvailableRangeByCol_ (revisionRange : JSRange)
    (rangesByCol : List (String × Option (List JSRange))) :
    List (String × JSRange) :=
  rangesByCol.foldl (fun acc p =>
    match p.2 with
    | none => acc
    | some ds =>
        match firstOverlap revisionRange ds with
        | some r => mapSet acc p.1 r
        | none => acc) []

/-- `new Set(this.columns_)` at line 309. -/
def planColumns0 (columns_ : List String) : List String :=
  jsSetOfList columns_

/-- The histogram split (lines 312-323): histogram slices planned for the
request range minus histogram's available range. -/
def planHistogramSlices (columns_ : List String) (revisionRange : JSRange)
    (avail : List (String × JSRange)) : List Slice :=
  if "histogram" ∈ planColumns0 columns_ then
    (match lookupMap avail "histogram" with
     | some a => JSRange.findDifference revisionRange a
     | none => [revisionRange]).map
      (fun r => { revisionRange := r, columns := ["revision", "histogram"] })
  else []

/-- The column set after the histogram split (line 313). -/
def planColumns1 (columns_ : List String) : List String :=
  if "histogram" ∈ planColumns0 columns_ then
    (planColumns0 columns_).filter (fun c => c ≠ "histogram")
  else planColumns0 columns_

/-- The column set after dropping fully-available columns (lines 326-337):
`revision` and `alert` always stay; a column with an available range whose
duration equals the request's is deleted. -/
def planColumns2 (columns_ : List String) (revisionRange : JSRange)
    (avail : List (String × JSRange)) : List String :=
  (planColumns1 columns_).filter (fun col =>
    if col = "revision" then true
    else if col = "alert" then true
    else
      match lookupMap avail col with
      | none => true
      | some a => ¬ (revisionRange.duration = a.duration))

/-- The common-availability intersection loop (lines 345-355): intersect the
available ranges of all remaining non-`revision` columns, bailing out to the
empty range when a column has none. -/
def commonLoop (avail : List (String × JSRange)) :
    List String → JSRange → JSRange
  | [], acc => acc
  | col :: rest, acc =>
      if col = "revision" then commonLoop avail rest acc
      else
        match lookupMap avail col with
        | none => JSRange.empty
        | some a => commonLoop avail rest (acc.findIntersection a)

/-- `getSlices_` (lines 301-364): histogram slices, fully-available column
drop, the all-cached short-circuit (which returns an empty set, discarding
any histogram slices), and one slice per missing sub-range. -/
def getSlices_ (columns_ : List String) (revisionRange : JSRange)
    (avail : List (String × JSRange)) : List Slice :=
  let histSlices := planHistogramSlices columns_ revisionRange avail
  let columns := planColumns2 columns_ revisionRange avail
  if columns.length = 1 then []
  else
    let availableRange := commonLoop avail columns revisionRange
    let missingRanges := JSRange.findDifference revisionRange availableRange
    histSlices ++ missingRanges.map (fun r => { revisionRange := r, columns := columns })

/-- `MAX_RETRIES` (line 102). -/
def MAX_RETRIES : Nat := 3

/-- `HTTP_NOT_FOUND` (line 103). -/
def HTTP_NOT_FOUND : Int := 404

/-- `SERVER_ERROR` (line 104). -/
def SERVER_ERROR : Int := 500

/-- `MISSING_TIMESERIES_RETRY_MS` (line 105): 1000*60*60*24*2.8 ms. -/
def MISSING_TIMESERIES_RETRY_MS : Int := 241920000

/-- `Number.MAX_SAFE_INTEGER`. -/
def MAX_SAFE_INTEGER : Int := 9007199254740991

/-- A slice response as consumed by `generateResults`: either the JSON body
(`data`/`columns`) of a successful fetch, or the `{error, status}` object
built at lines 178-181 (`data` and `columns` are then absent). -/
structure FetchResult where
  data : Option (List Row)
  columns : Option (List String)
  status : Option Int
  error : Bool
deriving DecidableEq, Repr

/-- One HTTP exchange as seen by `fetch_`: the response status and, when the
body is consulted, its decoded JSON `data` table. -/
structure RawHttp where
  status : Int
  body : Option (List (List Int))
deriving Repr

/-- `Response.ok`: status in the 200-299 range. -/
def httpOk (s : Int) : Bool :=
  decide (200 ≤ s) && decide (s < 300)

/-- `TimeseriesSlice.fetch_` (lines 150-189), with the environment's
successive responses supplied as `responses` (attempt number to response)
and the instance's `retry_` counter made explicit.  Returns the result
object and the number of attempts performed. -/
def fetchAux (columns : List String) (responses : Nat → RawHttp)
    (attempt retry : Nat) : FetchResult × Nat :=
  let resp := responses attempt
  if httpOk resp.status then
    ({ data := (resp.body).map (fun t => normalize t columns),
       columns := some columns, status := none, error := false }, attempt + 1)
  else if h : resp.status = SERVER_ERROR ∧ retry < MAX_RETRIES then
    fetchAux columns responses (attempt + 1) (retry + 1)
  else
    ({ data := none, columns := none, status := some resp.status, error := true },
      attempt + 1)
termination_by MAX_RETRIES - retry
decreasing_by
  simp only [MAX_RETRIES] at h ⊢
  omega

/-- A whole `fetch_` run: first attempt with a fresh retry counter. -/
def sliceFetch (columns : List String) (responses : Nat → RawHttp) :
    FetchResult × Nat :=
  fetchAux columns responses 0 0

/-- Modelled from the spec: the decimal behaviour of the ECMAScript builtin
`parseInt` (leading whitespace skipped, optional sign, longest digit prefix;
NaN — here `none` — when no digits). -/
def jsParseInt (s : String) : Option Int :=
  let cs := s.data.dropWhile (fun c => c = ' ' ∨ c = '\t' ∨ c = '\n' ∨ c = '\r')
  let sign : Int := match cs.head? with | some '-' => -1 | _ => 1
  let cs2 := match cs.head? with
    | some '-' => cs.tail
    | some '+' => cs.tail
    | _ => cs
  let digits := cs2.takeWhile Char.isDigit
  if digits.isEmpty then none
  else some (sign * digits.foldl (fun acc c => acc * 10 + ((c.toNat : Int) - 48)) 0)

/-- `parseInt(this.body_.get(field))`: an absent form field is `null`, and
`parseInt(null)` is NaN. -/
def formParseInt (field : Option String) : Option Int :=
  match field with
  | none => none
  | some s => jsParseInt s

/-- The `|| undefined` in `parseInt(...) || undefined` (lines 211-212): NaN
and 0 are falsy and collapse to `undefined`. -/
def orUndefined (v : Option Int) : Option Int :=
  match v with
  | none => none
  | some n => if n = 0 then none else some n

/-- The revision-range computation of `parseRequest_` (lines 211-217). -/
def parseRevisionRange (minField maxField : Option String) : JSRange :=
  let maxRevision := orUndefined (formParseInt maxField)
  let minRevision := orUndefined (formParseInt minField)
  (JSRange.empty.addValue (match minRevision with
    | none => 0
    | some v => v)).addValue
    (match maxRevision with
     | none => MAX_SAFE_INTEGER
     | some v => v)

/-- The mutable state of one planned slice during the coalescing double loop
of `generateResults` (lines 395-418): its remaining column set, the peer
slices borrowed so far through it, and whether it was deleted from the
slice set. -/
structure CoalesceState where
  cols : List String
  borrowed : List Slice
  dropped : Bool
deriving DecidableEq, Repr

/-- One iteration of the inner `for (const otherSlice of otherSlices)` loop
(lines 396-417): skip unless the peer's range covers this slice's range;
delete every shared non-`revision` column (borrowing the peer when any
column matched); delete the slice when its column set shrinks to size 1. -/
def coalesceStep (s : Slice) (st : CoalesceState) (t : Slice) : CoalesceState :=
  if (s.revisionRange.findIntersection t.revisionRange).duration <
      s.revisionRange.duration then st
  else
    let removed := st.cols.filter (fun c => ¬ c = "revision" ∧ c ∈ t.columns)
    let cols2 := st.cols.filter (fun c => c = "revision" ∨ ¬ c ∈ t.columns)
    let borrowed2 := if removed.isEmpty then st.borrowed else jsSetAdd st.borrowed t
    { cols := cols2, borrowed := borrowed2,
      dropped := st.dropped || decide (cols2.length = 1) }

/-- The whole coalescing pass for one planned slice against the slices of
the matching live peers, in order. -/
def coalesceSlice (s : Slice) (others : List Slice) : CoalesceState :=
  others.foldl (coalesceStep s) { cols := s.columns, borrowed := [], dropped := false }

/-- This slice's column set after the first `k` peer slices were processed. -/
def coalesceColsAfter (s : Slice) (others : List Slice) (k : Nat) : List String :=
  (coalesceSlice s (others.take k)).cols

/-- The slices of all live peer requests with the same database name
(lines 391-394). -/
def matchingPeerSlices (dbName : String) (peers : List (String × List Slice)) :
    List Slice :=
  ((peers.filter (fun p => p.1 = dbName)).map (fun p => p.2)).join

/-- The planned slices surviving coalescing, with their pruned column sets. -/
def coalesceKept (slices : List Slice) (others : List Slice) : List Slice :=
  slices.filterMap (fun s =>
    let st := coalesceSlice s others
    if st.dropped then none
    else some { revisionRange := s.revisionRange, columns := st.cols })

/-- The `matchingSlices` set accumulated over all planned slices. -/
def coalesceBorrowed (slices : List Slice) (others : List Slice) : List Slice :=
  slices.foldl (fun acc s => (coalesceSlice s others).borrowed.foldl jsSetAdd acc) []

/-- The cache-read result consumed by the generator (the metadata fields
`units`/`improvement_direction` play no role in the claims and are
omitted). -/
structure CacheResult where
  data : Option (List Row)
  availableRangeByCol : List (String × JSRange)
  missingTimestamp : Option Int
deriving Repr

/-- A snapshot yielded by the generator: the cached result (no `columns`
field) or a merged slice result. -/
structure Snapshot where
  data : Option (List Row)
  columns : Option (List String)
deriving DecidableEq, Repr

/-- A write scheduled through `scheduleWrite` (modelled from the spec:
`CacheRequestBase.scheduleWrite` is fire-and-forget): either the
`{missingTimestamp}` record of line 440 or the final result of line 467. -/
inductive WriteOp where
  | missingTs (t : Int)
  | finalWrite (data : List Row) (columns : List String)
deriving DecidableEq, Repr

/-- The negative-result suppression test (lines 380-382):
`cacheResult.missingTimestamp && (new Date(ts) > new Date() - RETRY_MS)`,
with timestamps as milliseconds. -/
def suppressMissing (mt : Option Int) (now : Int) : Bool :=
  match mt with
  | none => false
  | some t => decide (now - MISSING_TIMESERIES_RETRY_MS < t)

/-- The `alert`-purge of lines 444-453: remove the `alert` field from every
merged row inside the request range. -/
def purgeAlerts (revisionRange : JSRange) (rows : List Row) : List Row :=
  rows.map (fun d =>
    if revisionRange.mem (keyD d "revision") then deleteField d "alert" else d)

/-- The generator's loop state apart from scheduled writes: working merged
rows, accumulated `finalResult.columns`, emitted snapshots, whether any
slice snapshot was emitted, and whether a JS exception was raised (a result
whose `columns`/`data` are absent and which is not a 404 makes lines 444/459
throw). -/
structure GenCore where
  mergedData : List Row
  finalColumns : List String
  emitted : List Snapshot
  emittedAny : Bool
  errored : Bool
deriving DecidableEq, Repr

/-- One iteration of the `for await` loop (lines 429-465), writes apart.
A falsy result is skipped; a data-less 404 is skipped here (its write is in
`genWriteOut`); a result whose `columns` or `data` are absent (a non-404
error object) makes line 444 resp. 459 throw, which aborts the generator:
that is the `errored` flag.  Otherwise purge alerts if the response carries
them, accumulate the column union, and merge the in-range rows. -/
def genCoreStep (revisionRange : JSRange) (core : GenCore) :
    Option FetchResult → GenCore
  | none => core
  | some r =>
      if core.errored then core
      else if r.data = none ∧ r.status = some HTTP_NOT_FOUND then core
      else if r.columns = none then
        { core with errored := true }
      else if r.data = none then
        { core with errored := true }
      else
        let rcols := r.columns.getD []
        let rows := r.data.getD []
        let merged1 := if "alert" ∈ rcols then
            purgeAlerts revisionRange core.mergedData
          else core.mergedData
        let cols := jsSetOfList (rcols ++ core.finalColumns)
        let filtered := rows.filter (fun d =>
          revisionRange.mem (keyD d "revision"))
        let merged2 := mergeObjectArrays "revision" merged1 [filtered]
        { mergedData := merged2, finalColumns := cols,
          emitted := core.emitted ++
            [{ data := some merged2, columns := some cols }],
          emittedAny := true, errored := false }

/-- The write scheduled by one loop iteration: the 404 branch (lines
432-441) writes `{missingTimestamp: now}`. -/
def genWriteOut (now : Int) (core : GenCore) :
    Option FetchResult → List WriteOp
  | none => []
  | some r =>
      if core.errored then []
      else if r.data = none ∧ r.status = some HTTP_NOT_FOUND then
        [WriteOp.missingTs now]
      else []

/-- The loop folded over the completion-ordered responses. -/
def genCoreFold (revisionRange : JSRange) (core : GenCore)
    (results : List (Option FetchResult)) : GenCore :=
  results.foldl (genCoreStep revisionRange) core

/-- The writes scheduled across the loop, in order. -/
def genWritesFold (revisionRange : JSRange) (now : Int) (core : GenCore) :
    List (Option FetchResult) → List WriteOp
  | [] => []
  | r :: rest =>
      genWriteOut now core r ++
        genWritesFold revisionRange now (genCoreStep revisionRange core r) rest

/-- The cached portion emitted before the suppression check (lines 373-378):
one snapshot when the cache had a `data` field. -/
def cachedEmissions (cacheResult : CacheResult) : List Snapshot :=
  match cacheResult.data with
  | some d => [{ data := some d, columns := none }]
  | none => []

/-- Everything `generateResults` consumes: the cache result, the current
time, the parsed revision range, the database name, the planned slices
(`slicesPromise`), the live peers (`findInProgressRequest`, modelled from
the spec as the registry contents: database name and planned slices of each
peer), and the completion-ordered responses of the launched slices. -/
structure GenInputs where
  cacheResult : CacheResult
  now : Int
  revisionRange : JSRange
  dbName : String
  slices : List Slice
  peers : List (String × List Slice)
  arrivals : List (Option FetchResult)

/-- What a run of the generator produces: the yielded snapshots, how many
slice responses were awaited (own surviving slices plus borrowed peers),
the scheduled writes, and whether a JS exception escaped. -/
structure GenOutput where
  emitted : List Snapshot
  fetchesStarted : Nat
  writes : List WriteOp
  errored : Bool
deriving DecidableEq, Repr

/-- The generator state right after the cached portion was emitted. -/
def genCore0 (g : GenInputs) : GenCore :=
  { mergedData := (g.cacheResult.data).getD []
    finalColumns := []
    emitted := cachedEmissions g.cacheResult
    emittedAny := false
    errored := false }

/-- `generateResults` from the suppression check on (lines 389-468):
coalesce against live peers, await every response, run the loop, and
schedule the final write when the final result carries rows (and no
exception was raised, which would abort the generator before line 466). -/
def generateResultsRest (g : GenInputs) : GenOutput :=
  let others := matchingPeerSlices g.dbName g.peers
  let kept := coalesceKept g.slices others
  let borrowed := coalesceBorrowed g.slices others
  let core := genCoreFold g.revisionRange (genCore0 g) g.arrivals
  let writes := genWritesFold g.revisionRange g.now (genCore0 g) g.arrivals
  let finalData : Option (List Row) :=
    if core.emittedAny then some core.mergedData else g.cacheResult.data
  let finalWrites :=
    if core.errored then writes
    else
      match finalData with
      | some d =>
          if d.isEmpty then writes
          else writes ++ [WriteOp.finalWrite d core.finalColumns]
      | none => writes
  { emitted := core.emitted, fetchesStarted := kept.length + borrowed.length,
    writes := finalWrites, errored := core.errored }

/-- `generateResults` (lines 366-470): emit the cached portion, stop early
when a recent `missingTimestamp` is cached, otherwise continue with the
slice pipeline. -/
def generateResults (g : GenInputs) : GenOutput :=
  if suppressMissing g.cacheResult.missingTimestamp g.now then
    { emitted := cachedEmissions g.cacheResult, fetchesStarted := 0,
      writes := [], errored := false }
  else generateResultsRest g

/-- One invocation of `writeRanges_` (lines 566-580): the requested columns,
the request range minimum, and the written rows. -/
structure WriteRangesOp where
  columns_ : List String
  requestMin : Int
  data : Option (List Row)

/-- `writeRanges_(transaction, data)` (lines 566-580) acting on the `ranges`
object store: no write when `data` is absent; for each requested column
except `revision` and `alert`, merge `[request.min, lastRow.revision]` into
the stored range list.  (With `data` present but empty, the JS code throws
on `data[-1].revision` before any put, so the store is also unchanged.) -/
def writeRanges_ (op : WriteRangesOp)
    (store : List (String × List JSRange)) : List (String × List JSRange) :=
  match op.data with
  | none => store
  | some [] => store
  | some rows =>
      let revisionRange := JSRange.fromExplicitRange op.requestMin
        (keyD (rows.getLastD []) "revision")
      op.columns_.foldl (fun st col =>
        if col = "revision" then st
        else if col = "alert" then st
        else mapSet st col
          (revisionRange.mergeIntoArray ((lookupMap st col).getD []))) store

/-- All reachable states of the `ranges` object store: `upgradeDatabase`
creates it empty (line 264) and `writeRanges_` is its only writer. -/
def applyWriteOps (ops : List WriteRangesOp) : List (String × List JSRange) :=
  ops.foldl (fun st op => writeRanges_ op st) []

-- Theorems from here on.

namespace JSRange

theorem mem_findIntersection (a b : JSRange) (x : Int) :
    (a.findIntersection b).mem x = (a.mem x && b.mem x) := by
  cases a with
  | empty => simp [findIntersection, mem]
  | intv al ah =>
    cases b with
    | empty => simp [findIntersection, mem]
    | intv bl bh =>
      simp only [findIntersection]
      by_cases h : min ah bh < max al bl
      · simp only [if_pos h, mem]
        rcases le_or_lt al x with h1 | h1 <;> rcases le_or_lt x ah with h2 | h2 <;>
          rcases le_or_lt bl x with h3 | h3 <;> rcases le_or_lt x bh with h4 | h4 <;>
            (first | (simp_all; omega) | simp_all)
      · simp only [if_neg h, mem]
        simp only [decide_eq_decide, Bool.and_comm]
        rcases le_or_lt al x with h1 | h1 <;> rcases le_or_lt x ah with h2 | h2 <;>
          rcases le_or_lt bl x with h3 | h3 <;> rcases le_or_lt x bh with h4 | h4 <;>
            simp_all <;> omega

/-- `findDifference` together with the subtracted range covers the minuend:
any point of `[lo, hi]` is either in `b` or in one of the leftover pieces. -/
theorem findDifference_covers (lo hi x : Int) (b : JSRange)
    (hx1 : lo ≤ x) (hx2 : x ≤ hi) :
    b.mem x = true ∨ ∃ p ∈ findDifference (.intv lo hi) b, p.mem x = true := by
  cases b with
  | empty =>
    right
    exact ⟨.intv lo hi, by simp [findDifference], by simp [mem]; omega⟩
  | intv bl bh =>
    by_cases hmem : bl ≤ x ∧ x ≤ bh
    · left; simp [mem]; omega
    · right
      simp only [findDifference]
      by_cases h1 : lo < bl
      · simp only [if_pos h1]
        by_cases h2 : x ≤ bl
        · exact ⟨.intv lo (min hi bl), by simp, by simp [mem]; omega⟩
        · refine ⟨.intv bh hi, ?_, by simp [mem]; omega⟩
          have : bh < hi := by omega
          simp [this]
      · simp only [if_neg h1]
        have : bh < hi := by omega
        exact ⟨.intv (max lo bh) hi, by simp [this], by simp [mem]; omega⟩

end JSRange

/-- Correctness of the binary-search loop under the loop invariants: on a
key-sorted array the result is the least index whose key is at least
`loVal`, or the array length. -/
theorem flisaLoop_correct (ary : List α) (getKey : α → Int) (loVal : Int)
    (hsort : ∀ i j : Nat, i ≤ j → j < ary.length →
      keyAt ary getKey i ≤ keyAt ary getKey j) :
    ∀ (fuel low : Nat) (high hit : Int),
      (low : Int) ≤ high + 1 →
      high < (ary.length : Int) →
      high + 1 - (low : Int) ≤ (fuel : Int) →
      (∀ j : Nat, j < low → keyAt ary getKey j < loVal) →
      (∀ j : Nat, high < (j : Int) → j < ary.length → loVal ≤ keyAt ary getKey j) →
      (hit = -1 ∨ (0 ≤ hit ∧ hit ≤ high + 1 ∧ hit.toNat < ary.length ∧
        keyAt ary getKey hit.toNat = loVal)) →
      flisaLoop ary getKey loVal fuel low high hit ≤ ary.length ∧
      (∀ j : Nat, j < flisaLoop ary getKey loVal fuel low high hit →
        keyAt ary getKey j < loVal) ∧
      (flisaLoop ary getKey loVal fuel low high hit < ary.length →
        loVal ≤ keyAt ary getKey (flisaLoop ary getKey loVal fuel low high hit)) := by
  intro fuel
  induction fuel with
  | zero =>
    intro low high hit h1 h2 h3 hlow hhigh hhit
    have hle : (low : Int) = high + 1 := by omega
    rcases hhit with rfl | ⟨hh0, hh1, hh2, hh3⟩
    · simp only [flisaLoop, if_pos rfl, if_true]
      refine ⟨by omega, hlow, fun hlt => hhigh low (by omega) hlt⟩
    · simp only [flisaLoop, if_neg (by omega : ¬ hit = -1)]
      refine ⟨by omega, fun j hj => hlow j (by omega), fun _ => le_of_eq hh3.symm⟩
  | succ fuel ih =>
    intro low high hit h1 h2 h3 hlow hhigh hhit
    by_cases hcond : (low : Int) ≤ high
    · have hne : (0 : Int) ≤ high := le_trans (Int.ofNat_nonneg low) hcond
      have htn : (high.toNat : Int) = high := Int.toNat_of_nonneg hne
      simp only [flisaLoop, if_pos hcond]
      set i : Nat := (low + high.toNat) / 2 with hidef
      have hi1 : low ≤ i := by omega
      have hi2 : (i : Int) ≤ high := by omega
      have hilen : i < ary.length := by omega
      rcases lt_trichotomy (keyAt ary getKey i - loVal) 0 with hc | hc | hc
      · rw [if_pos hc]
        refine ih (i + 1) high hit (by omega) h2 (by omega) ?_ hhigh ?_
        · intro j hj
          exact lt_of_le_of_lt (hsort j i (by omega) hilen) (by omega)
        · rcases hhit with rfl | ⟨hh0, hh1, hh2, hh3⟩
          · exact Or.inl rfl
          · exact Or.inr ⟨hh0, hh1, hh2, hh3⟩
      · rw [if_neg (by omega), if_neg (by omega)]
        refine ih low ((i : Int) - 1) (i : Int) (by omega) (by omega) (by omega)
          hlow ?_ ?_
        · intro j hj hjlen
          calc loVal = keyAt ary getKey i := by omega
            _ ≤ keyAt ary getKey j := hsort i j (by omega) hjlen
        · have hti : ((i : Int)).toNat = i := by omega
          exact Or.inr ⟨by omega, by omega, by rw [hti]; exact hilen, by rw [hti]; omega⟩
      · rw [if_neg (by omega), if_pos hc]
        have hhit2 : hit = -1 ∨ (0 ≤ hit ∧ hit ≤ (i : Int) - 1 + 1 ∧
            hit.toNat < ary.length ∧ keyAt ary getKey hit.toNat = loVal) := by
          rcases hhit with rfl | ⟨hh0, hh1, hh2, hh3⟩
          · exact Or.inl rfl
          · refine Or.inr ⟨hh0, ?_, hh2, hh3⟩
            by_contra hgt
            have hile : i ≤ hit.toNat := by omega
            have := hsort i hit.toNat hile hh2
            omega
        refine ih low ((i : Int) - 1) hit (by omega) (by omega) (by omega)
          hlow ?_ hhit2
        intro j hj hjlen
        calc loVal ≤ keyAt ary getKey i := by omega
          _ ≤ keyAt ary getKey j := hsort i j (by omega) hjlen
    · have hle : (low : Int) = high + 1 := by omega
      rcases hhit with rfl | ⟨hh0, hh1, hh2, hh3⟩
      · simp only [flisaLoop, if_neg hcond, if_pos rfl, if_true]
        refine ⟨by omega, hlow, fun hlt => hhigh low (by omega) hlt⟩
      · simp only [flisaLoop, if_neg hcond, if_neg (by omega : ¬ hit = -1)]
        refine ⟨by omega, fun j hj => hlow j (by omega), fun _ => le_of_eq hh3.symm⟩

/-- On a non-empty key-sorted array the source function returns the least
index whose key is at least `loVal`, or the length when there is none
(empty arrays are the buggy case, see line 59). -/
theorem findLowIndexInSortedArray_spec (ary : List α) (getKey : α → Int)
    (loVal : Int) (hne : ary ≠ [])
    (hsort : ∀ i j : Nat, i ≤ j → j < ary.length →
      keyAt ary getKey i ≤ keyAt ary getKey j) :
    findLowIndexInSortedArray ary getKey loVal ≤ ary.length ∧
    (∀ j : Nat, j < findLowIndexInSortedArray ary getKey loVal →
      keyAt ary getKey j < loVal) ∧
    (findLowIndexInSortedArray ary getKey loVal < ary.length →
      loVal ≤ keyAt ary getKey (findLowIndexInSortedArray ary getKey loVal)) := by
  have hlen : ary.length ≠ 0 := fun h => hne (List.length_eq_zero.mp h)
  unfold findLowIndexInSortedArray
  rw [if_neg hlen]
  exact flisaLoop_correct ary getKey loVal hsort (ary.length + 1) 0
    ((ary.length : Int) - 1) (-1) (by omega) (by omega) (by omega)
    (by omega) (fun j hj hjlen => absurd hjlen (by omega)) (Or.inl rfl)

theorem find?_key_map (a : List (String × Int)) (k : String)
    (f : String × Int → Int) :
    List.find? (fun p => p.1 = k) (a.map (fun p => (p.1, f p))) =
      (List.find? (fun p => p.1 = k) a).map (fun p => (p.1, f p)) := by
  rw [List.find?_map]
  rfl

/-- Finding a key inside a filtered association list, when every pair with
that key passes the filter, is the same as finding it in the whole list. -/
theorem find?_filter_key (b : List (String × Int)) (k : String)
    (cond : String × Int → Bool)
    (h : ∀ q : String × Int, q.1 = k → cond q = true) :
    (b.filter cond).find? (fun p => p.1 = k) = b.find? (fun p => p.1 = k) := by
  induction b with
  | nil => simp
  | cons q rest ihq =>
    by_cases hk : q.1 = k
    · rw [List.filter_cons, if_pos (h q hk)]
      rw [List.find?_cons_of_pos _ (by simpa using hk),
        List.find?_cons_of_pos _ (by simpa using hk)]
    · rw [List.filter_cons]
      by_cases hc : cond q = true
      · rw [if_pos hc, List.find?_cons_of_neg _ (by simpa using hk),
          List.find?_cons_of_neg _ (by simpa using hk), ihq]
      · rw [if_neg hc, List.find?_cons_of_neg _ (by simpa using hk), ihq]

/-- Property reads after `Object.assign(a, b)`: fields of `b` win, fields
only in `a` survive. -/
theorem jsGet_objAssign (a b : Row) (k : String) :
    jsGet (objAssign a b) k =
      match jsGet a k with
      | some va => some ((jsGet b k).getD va)
      | none => jsGet b k := by
  have hmain : (objAssign a b).find? (fun p => p.1 = k) =
      ((a.find? (fun p => p.1 = k)).map
        (fun p => (p.1, (jsGet b p.1).getD p.2))).or
      ((b.filter (fun p => jsGet a p.1 = none)).find? (fun p => p.1 = k)) := by
    unfold objAssign
    rw [List.find?_append, find?_key_map a k (fun p => (jsGet b p.1).getD p.2)]
  cases hfa : a.find? (fun p => (p.1 = k : Bool)) with
  | none =>
    have hga : jsGet a k = none := by simp [jsGet, hfa]
    rw [hga]
    unfold jsGet
    rw [hmain, hfa]
    simp only [Option.map_none', Option.none_or]
    rw [find?_filter_key b k _ ?_]
    intro q hq
    have : jsGet a q.1 = none := by rw [hq]; exact hga
    simpa using this
  | some pa =>
    have hpk : pa.1 = k := by simpa using List.find?_some hfa
    have hga : jsGet a k = some pa.2 := by simp [jsGet, hfa]
    rw [hga]
    unfold jsGet
    rw [hmain, hfa]
    simp only [Option.map_some']
    rw [hpk]
    rfl

/-- If the `Object.assign` operands agree on a key, so does the result. -/
theorem keyD_objAssign (a b : Row) (k : String) (h : keyD a k = keyD b k) :
    keyD (objAssign a b) k = keyD b k := by
  unfold keyD at h ⊢
  rw [jsGet_objAssign]
  cases ha : jsGet a k with
  | none => rfl
  | some va =>
    cases hb : jsGet b k with
    | none => simp_all
    | some vb => simp_all

/-- Setting an index to the value it already holds is a no-op. -/
theorem set_get_self (l : List α) (i : Nat) (a : α) (h : l.get? i = some a) :
    l.set i a = l := by
  induction l generalizing i with
  | nil => simp at h
  | cons x t ih =>
    cases i with
    | zero =>
      simp only [List.get?] at h
      cases h
      rfl
    | succ n =>
      simp only [List.get?] at h
      simp only [List.set]
      rw [ih n h]

/-- `keyAt` is the defaulted read of the mapped key list. -/
theorem keyAt_eq_getD_map (l : List α) (f : α → Int) (i : Nat) :
    keyAt l f i = (l.map f).getD i 0 := by
  simp [keyAt, List.getD_eq_get?, List.get?_map]

/-- Splicing a value `v` into a strictly sorted list of keys at an index `r`
with all keys before `r` below `v` and all keys from `r` on above `v` keeps
the list strictly sorted. -/
theorem sorted_insert_keys (ks : List Int) (v : Int) :
    ∀ r : Nat, ks.Pairwise (· < ·) →
    (∀ j, j < r → j < ks.length → ks.getD j 0 < v) →
    (∀ j, r ≤ j → j < ks.length → v < ks.getD j 0) →
    (ks.take r ++ v :: ks.drop r).Pairwise (· < ·) := by
  induction ks with
  | nil =>
    intro r _ _ _
    simp
  | cons k t ih =>
    intro r hs hlow hhigh
    cases r with
    | zero =>
      simp only [List.take_zero, List.drop_zero, List.nil_append]
      refine List.Pairwise.cons ?_ hs
      intro b hb
      have hk : v < k := by simpa using hhigh 0 (Nat.le_refl 0) (by simp)
      rcases List.mem_cons.mp hb with rfl | hbt
      · exact hk
      · exact lt_trans hk (List.rel_of_pairwise_cons hs hbt)
    | succ r =>
      simp only [List.take_succ_cons, List.drop_succ_cons, List.cons_append]
      have hs2 := List.pairwise_cons.mp hs
      refine List.Pairwise.cons ?_ (ih r hs2.2 ?_ ?_)
      · intro b hb
        rcases List.mem_append.mp hb with hb1 | hb2
        · exact hs2.1 b (List.take_subset _ _ hb1)
        · rcases List.mem_cons.mp hb2 with rfl | hb3
          · simpa using hlow 0 (Nat.succ_pos r) (by simp)
          · exact hs2.1 b (List.drop_subset _ _ hb3)
      · intro j hj hjl
        simpa using hlow (j + 1) (by omega) (by simpa using hjl)
      · intro j hj hjl
        simpa using hhigh (j + 1) (by omega) (by simpa using hjl)

/-- A merge of one row into a list that is strictly sorted by the key field
keeps it strictly sorted by the key field. -/
theorem mergeRow_sorted (key : String) (merged : List Row) (obj : Row)
    (hs : (merged.map (fun r => keyD r key)).Pairwise (· < ·)) :
    ((mergeRow key merged obj).map (fun r => keyD r key)).Pairwise (· < ·) := by
  by_cases hnil : merged = []
  · subst hnil
    simp [mergeRow, findLowIndexInSortedArray]
  · have hlenmap : (merged.map (fun r => keyD r key)).length = merged.length :=
      List.length_map _ _
    have hmono : ∀ i j : Nat, i < j → j < merged.length →
        (merged.map (fun r => keyD r key)).getD i 0 <
          (merged.map (fun r => keyD r key)).getD j 0 := by
      intro i j hij hj
      have hg := List.pairwise_iff_get.mp hs ⟨i, by omega⟩ ⟨j, by omega⟩
        (by simpa using hij)
      rw [List.getD_eq_get?, List.getD_eq_get?, List.get?_eq_get (by omega),
        List.get?_eq_get (by omega)]
      simpa using hg
    have hsort : ∀ i j : Nat, i ≤ j → j < merged.length →
        keyAt merged (fun r => keyD r key) i ≤ keyAt merged (fun r => keyD r key) j := by
      intro i j hij hj
      rw [keyAt_eq_getD_map, keyAt_eq_getD_map]
      rcases Nat.eq_or_lt_of_le hij with rfl | hlt
      · exact le_refl _
      · exact le_of_lt (hmono i j hlt hj)
    obtain ⟨hr1, hr2, hr3⟩ := findLowIndexInSortedArray_spec merged
      (fun r => keyD r key) (keyD obj key) hnil hsort
    unfold mergeRow
    by_cases hle : merged.length ≤ findLowIndexInSortedArray merged
        (fun e => keyD e key) (keyD obj key)
    · rw [if_pos hle]
      rw [List.map_append]
      rw [List.pairwise_append]
      refine ⟨hs, by simp, ?_⟩
      intro x hx y hy
      simp only [List.map_cons, List.map_nil, List.mem_singleton] at hy
      subst hy
      obtain ⟨m, hm⟩ := List.get_of_mem hx
      have hmlen : (m : Nat) < merged.length := by
        have := m.isLt
        omega
      have h2 := hr2 m (by omega)
      rw [keyAt_eq_getD_map] at h2
      rw [List.getD_eq_get?, List.get?_eq_get (by omega)] at h2
      simp only [Option.getD_some] at h2
      rw [← hm]
      exact h2
    · rw [if_neg hle]
      have hrlen : findLowIndexInSortedArray merged
          (fun e => keyD e key) (keyD obj key) < merged.length := by omega
      have hget : merged.get? (findLowIndexInSortedArray merged
          (fun e => keyD e key) (keyD obj key)) = some (merged.getD
            (findLowIndexInSortedArray merged
              (fun e => keyD e key) (keyD obj key)) []) := by
        rw [List.getD_eq_get?, List.get?_eq_get hrlen]
        rfl
      have hkeyAtr : keyAt merged (fun r => keyD r key)
          (findLowIndexInSortedArray merged (fun e => keyD e key) (keyD obj key)) =
          keyD (merged.getD (findLowIndexInSortedArray merged
            (fun e => keyD e key) (keyD obj key)) []) key := by
        unfold keyAt
        rw [hget]
        rfl
      by_cases heq : keyD (merged.getD (findLowIndexInSortedArray merged
          (fun e => keyD e key) (keyD obj key)) []) key = keyD obj key
      · rw [if_pos heq]
        rw [List.map_set]
        have hval : keyD (objAssign (merged.getD (findLowIndexInSortedArray merged
            (fun e => keyD e key) (keyD obj key)) []) obj) key =
            keyD (merged.getD (findLowIndexInSortedArray merged
              (fun e => keyD e key) (keyD obj key)) []) key := by
          rw [keyD_objAssign _ _ _ heq, heq]
        rw [hval]
        rw [set_get_self _ _ _ ?_]
        · exact hs
        · rw [List.get?_map, hget]
          rfl
      · rw [if_neg heq]
        rw [List.map_append, List.map_take, List.map_cons, List.map_drop]
        refine sorted_insert_keys _ _ _ hs ?_ ?_
        · intro j hj hjl
          have := hr2 j hj
          rw [keyAt_eq_getD_map] at this
          exact this
        · intro j hj hjl
          have hjlen : j < merged.length := by omega
          have hge : keyD obj key ≤ (merged.map (fun r => keyD r key)).getD
              (findLowIndexInSortedArray merged
                (fun e => keyD e key) (keyD obj key)) 0 := by
            have := hr3 hrlen
            rw [keyAt_eq_getD_map] at this
            exact this
          have hner : keyD obj key ≠ (merged.map (fun r => keyD r key)).getD
              (findLowIndexInSortedArray merged
                (fun e => keyD e key) (keyD obj key)) 0 := by
            intro hcontra
            apply heq
            rw [← hkeyAtr, keyAt_eq_getD_map, ← hcontra]
          rcases Nat.eq_or_lt_of_le hj with rfl | hlt
          · omega
          · exact lt_trans (by omega) (hmono _ j hlt hjlen)

/-- Folding `mergeRow` over any batch of input rows preserves strict
sortedness by the key field. -/
theorem foldl_mergeRow_sorted (key : String) (objects : List Row) :
    ∀ m : List Row, (m.map (fun r => keyD r key)).Pairwise (· < ·) →
      ((objects.foldl (mergeRow key) m).map (fun r => keyD r key)).Pairwise (· < ·) := by
  induction objects with
  | nil => intro m hm; simpa using hm
  | cons o rest ih =>
    intro m hm
    exact ih (mergeRow key m o) (mergeRow_sorted key m o hm)

/-- `mergeObjectArrays` preserves strict sortedness of the target by the key
field, for any inputs. -/
theorem mergeObjectArrays_sorted_all (key : String) (arrays : List (List Row)) :
    ∀ target : List Row, (target.map (fun r => keyD r key)).Pairwise (· < ·) →
      ((mergeObjectArrays key target arrays).map (fun r => keyD r key)).Pairwise (· < ·) := by
  induction arrays with
  | nil => intro t ht; simpa [mergeObjectArrays] using ht
  | cons objects rest ih =>
    intro t ht
    exact ih (objects.foldl (mergeRow key) t) (foldl_mergeRow_sorted key objects t ht)

theorem mem_jsSetAdd [DecidableEq α] (l : List α) (x y : α) :
    y ∈ jsSetAdd l x ↔ y ∈ l ∨ y = x := by
  unfold jsSetAdd
  by_cases h : x ∈ l
  · rw [if_pos h]
    constructor
    · exact Or.inl
    · rintro (hy | rfl)
      · exact hy
      · exact h
  · rw [if_neg h]
    simp

theorem mem_jsSetOfList_aux [DecidableEq α] (l : List α) :
    ∀ acc : List α, ∀ y : α, y ∈ l.foldl jsSetAdd acc ↔ y ∈ acc ∨ y ∈ l := by
  induction l with
  | nil => intro acc y; simp
  | cons x rest ih =>
    intro acc y
    rw [List.foldl_cons, ih (jsSetAdd acc x) y, mem_jsSetAdd]
    simp only [List.mem_cons]
    tauto

theorem mem_jsSetOfList [DecidableEq α] (l : List α) (y : α) :
    y ∈ jsSetOfList l ↔ y ∈ l := by
  unfold jsSetOfList
  rw [mem_jsSetOfList_aux]
  simp

theorem nodup_jsSetAdd [DecidableEq α] (l : List α) (x : α) (h : l.Nodup) :
    (jsSetAdd l x).Nodup := by
  unfold jsSetAdd
  by_cases hx : x ∈ l
  · rwa [if_pos hx]
  · rw [if_neg hx]
    simpa [List.nodup_append] using ⟨h, fun hm => hx hm⟩

theorem nodup_jsSetOfList_aux [DecidableEq α] (l : List α) :
    ∀ acc : List α, acc.Nodup → (l.foldl jsSetAdd acc).Nodup := by
  induction l with
  | nil => intro acc h; simpa using h
  | cons x rest ih =>
    intro acc h
    exact ih (jsSetAdd acc x) (nodup_jsSetAdd acc x h)

theorem nodup_jsSetOfList [DecidableEq α] (l : List α) :
    (jsSetOfList l).Nodup :=
  nodup_jsSetOfList_aux l [] List.nodup_nil

theorem lookupMap_mem (m : List (String × α)) (k : String) (v : α)
    (h : lookupMap m k = some v) : (k, v) ∈ m := by
  unfold lookupMap at h
  cases hf : m.find? (fun p => p.1 = k) with
  | none => rw [hf] at h; simp at h
  | some p =>
    rw [hf] at h
    have hmem := List.mem_of_find?_eq_some hf
    have hpk : p.1 = k := by simpa using List.find?_some hf
    simp only [Option.map_some'] at h
    cases h
    rcases p with ⟨p1, p2⟩
    simp only at hpk
    rw [← hpk]
    exact hmem

theorem mem_mapSet (m : List (String × α)) (k : String) (v : α)
    (k' : String) (v' : α) (h : (k', v') ∈ mapSet m k v) :
    (k', v') ∈ m ∨ v' = v := by
  unfold mapSet at h
  by_cases hp : (m.find? (fun p => p.1 = k)).isSome
  · rw [if_pos hp] at h
    obtain ⟨p, hpm, hpe⟩ := List.mem_map.mp h
    by_cases hk : p.1 = k
    · rw [if_pos hk] at hpe
      cases hpe
      exact Or.inr rfl
    · rw [if_neg hk] at hpe
      left
      rwa [hpe] at hpm
  · rw [if_neg hp] at h
    rcases List.mem_append.mp h with h1 | h2
    · exact Or.inl h1
    · right
      simp at h2
      exact h2.2

theorem lookupMap_nil (k : String) : lookupMap ([] : List (String × α)) k = none :=
  rfl

/-- Overwriting the binding of key `k` in place leaves searches for other
keys unchanged. -/
theorem find?_map_setKey (m : List (String × α)) (k : String) (v : α)
    (k' : String) (hne : k' ≠ k) :
    List.find? (fun p => p.1 = k') (m.map (fun p => if p.1 = k then (k, v) else p)) =
      List.find? (fun p => p.1 = k') m := by
  induction m with
  | nil => simp
  | cons q rest ih =>
    simp only [List.map_cons]
    by_cases hqk : q.1 = k
    · rw [if_pos hqk]
      rw [List.find?_cons_of_neg _ (by simpa using Ne.symm hne),
        List.find?_cons_of_neg _ (by simp; exact fun hc => hne (by rw [← hc, hqk]))]
      exact ih
    · rw [if_neg hqk]
      by_cases hqk' : q.1 = k'
      · rw [List.find?_cons_of_pos _ (by simpa using hqk'),
          List.find?_cons_of_pos _ (by simpa using hqk')]
      · rw [List.find?_cons_of_neg _ (by simpa using hqk'),
          List.find?_cons_of_neg _ (by simpa using hqk')]
        exact ih

/-- `mapSet` does not disturb other keys. -/
theorem lookupMap_mapSet_ne (m : List (String × α)) (k : String) (v : α)
    (k' : String) (hne : k' ≠ k) :
    lookupMap (mapSet m k v) k' = lookupMap m k' := by
  unfold mapSet lookupMap
  by_cases hp : (m.find? (fun p => p.1 = k)).isSome
  · rw [if_pos hp]
    congr 1
    exact find?_map_setKey m k v k' hne
  · rw [if_neg hp]
    rw [List.find?_append]
    cases hm : m.find? (fun p => p.1 = k') with
    | some p => rfl
    | none =>
      rw [List.find?_cons_of_neg _ (by simpa using Ne.symm hne)]
      rfl

/-- The per-column write loop of `writeRanges_` never touches a key that is
`revision` or `alert`. -/
theorem writeRanges_loop_preserves (cols : List String) (f : String → List JSRange → List JSRange) :
    ∀ (st : List (String × List JSRange)) (col : String),
      (col = "alert" ∨ col = "revision") →
      lookupMap st col = none →
      lookupMap (cols.foldl (fun st c =>
        if c = "revision" then st
        else if c = "alert" then st
        else mapSet st c (f c (lookupMap st c |>.getD []))) st) col = none := by
  induction cols with
  | nil => intro st col _ h; simpa using h
  | cons c rest ih =>
    intro st col hcol h
    rw [List.foldl_cons]
    by_cases h1 : c = "revision"
    · rw [if_pos h1]
      exact ih st col hcol h
    · rw [if_neg h1]
      by_cases h2 : c = "alert"
      · rw [if_pos h2]
        exact ih st col hcol h
      · rw [if_neg h2]
        refine ih _ col hcol ?_
        rw [lookupMap_mapSet_ne _ _ _ _ ?_]
        · exact h
        · rcases hcol with rfl | rfl
          · exact fun hc => h2 hc.symm
          · exact fun hc => h1 hc.symm

/-- One `writeRanges_` call keeps `alert` and `revision` out of the store. -/
theorem writeRanges_preserves_no_alert (op : WriteRangesOp)
    (st : List (String × List JSRange)) (col : String)
    (hcol : col = "alert" ∨ col = "revision") (h : lookupMap st col = none) :
    lookupMap (writeRanges_ op st) col = none := by
  unfold writeRanges_
  match hd : op.data with
  | none => exact h
  | some [] => exact h
  | some (row :: rows) =>
    exact writeRanges_loop_preserves op.columns_ _ st col hcol h

/-- C8: in every reachable state of the `ranges` object store (empty at
creation, written only by `writeRanges_`), there is no entry for the
`alert` column, nor for `revision`. -/
theorem ranges_store_never_stores_alert (ops : List WriteRangesOp) :
    lookupMap (applyWriteOps ops) "alert" = none ∧
    lookupMap (applyWriteOps ops) "revision" = none := by
  have main : ∀ (ops : List WriteRangesOp) (st : List (String × List JSRange)),
      lookupMap st "alert" = none → lookupMap st "revision" = none →
      lookupMap (ops.foldl (fun st op => writeRanges_ op st) st) "alert" = none ∧
      lookupMap (ops.foldl (fun st op => writeRanges_ op st) st) "revision" = none := by
    intro ops
    induction ops with
    | nil => intro st h1 h2; exact ⟨h1, h2⟩
    | cons op rest ih =>
      intro st h1 h2
      exact ih (writeRanges_ op st)
        (writeRanges_preserves_no_alert op st "alert" (Or.inl rfl) h1)
        (writeRanges_preserves_no_alert op st "revision" (Or.inr rfl) h2)
  exact main ops [] rfl rfl

/-- C7: evaluating the source `findLowIndexInSortedArray` at the failing
input: the empty array yields 1, not the 0 that the claim — and the
function's own doc comment (lines 54-56) — require. -/
theorem findLowIndexInSortedArray_empty_eval :
    findLowIndexInSortedArray ([] : List Row) (fun e => keyD e "revision") 5 = 1 ∧
    findLowIndexInSortedArray ([] : List Row) (fun e => keyD e "revision") 5 ≠ 0 := by
  constructor
  · rfl
  · intro h
    simp [findLowIndexInSortedArray] at h

/-- C10: a `max_revision` (resp. `min_revision`) form value whose
`parseInt` is 0 or NaN behaves exactly like an absent field, and with both
fields defaulted the request range is `[0, Number.MAX_SAFE_INTEGER]`. -/
theorem parseRequest_zero_like_absent (minField maxField : Option String)
    (hmax : orUndefined (formParseInt maxField) = none)
    (hmin : orUndefined (formParseInt minField) = none) :
    (∀ mf : Option String, parseRevisionRange mf maxField = parseRevisionRange mf none) ∧
    (∀ xf : Option String, parseRevisionRange minField xf = parseRevisionRange none xf) ∧
    parseRevisionRange minField maxField = JSRange.intv 0 MAX_SAFE_INTEGER := by
  refine ⟨?_, ?_, ?_⟩
  · intro mf
    unfold parseRevisionRange
    rw [hmax]
    rfl
  · intro xf
    unfold parseRevisionRange
    rw [hmin]
    rfl
  · unfold parseRevisionRange
    rw [hmax, hmin]
    rfl

/-- Witness for the C10 theorem at the concrete fields
`min_revision = "zzz"` (unparsable) and `max_revision = "0"`. -/
theorem parseRequest_zero_like_absent_witness :
    parseRevisionRange (some "zzz") (some "0") = JSRange.intv 0 MAX_SAFE_INTEGER :=
  (parseRequest_zero_like_absent (some "zzz") (some "0")
    (by decide) (by decide)).2.2

/-- A 500 response below the retry limit makes `fetch_` re-fetch. -/
theorem fetchAux_500_step (columns : List String) (responses : Nat → RawHttp)
    (attempt retry : Nat) (h500 : (responses attempt).status = SERVER_ERROR)
    (hr : retry < MAX_RETRIES) :
    fetchAux columns responses attempt retry =
      fetchAux columns responses (attempt + 1) (retry + 1) := by
  rw [fetchAux]
  rw [if_neg (by simp [h500, httpOk, SERVER_ERROR])]
  rw [dif_pos ⟨h500, hr⟩]

/-- An OK response ends `fetch_` with the normalized body. -/
theorem fetchAux_ok (columns : List String) (responses : Nat → RawHttp)
    (attempt retry : Nat) (hok : httpOk (responses attempt).status = true) :
    fetchAux columns responses attempt retry =
      ({ data := ((responses attempt).body).map (fun t => normalize t columns),
         columns := some columns, status := none, error := false }, attempt + 1) := by
  rw [fetchAux]
  rw [if_pos hok]

/-- A non-OK response that is not a retryable 500 ends `fetch_` with the
`{error, status}` object. -/
theorem fetchAux_err (columns : List String) (responses : Nat → RawHttp)
    (attempt retry : Nat) (hnok : httpOk (responses attempt).status = false)
    (hne : ¬ ((responses attempt).status = SERVER_ERROR ∧ retry < MAX_RETRIES)) :
    fetchAux columns responses attempt retry =
      ({ data := none, columns := none, status := some (responses attempt).status,
         error := true }, attempt + 1) := by
  rw [fetchAux]
  rw [if_neg (by simp [hnok])]
  rw [dif_neg hne]

/-- After `k` straight 500 responses (`k` at most 3), `fetch_` is on its
`k`-th attempt with retry counter `k`. -/
theorem fetchAux_reach (columns : List String) (responses : Nat → RawHttp) :
    ∀ k : Nat, k ≤ MAX_RETRIES →
      (∀ i, i < k → (responses i).status = SERVER_ERROR) →
      sliceFetch columns responses = fetchAux columns responses k k := by
  intro k
  induction k with
  | zero => intro _ _; rfl
  | succ n ih =>
    intro hk h
    rw [ih (by omega) (fun i hi => h i (by omega))]
    exact fetchAux_500_step columns responses n n (h n (by omega)) (by omega)

/-- The attempt counter of `fetch_` never exceeds the first attempt plus
the remaining retry budget. -/
theorem fetchAux_attempts (columns : List String) (responses : Nat → RawHttp) :
    ∀ (fuel attempt retry : Nat), retry + fuel = MAX_RETRIES →
      (fetchAux columns responses attempt retry).2 ≤ attempt + fuel + 1 := by
  intro fuel
  induction fuel with
  | zero =>
    intro attempt retry hr
    by_cases hok : httpOk (responses attempt).status = true
    · rw [fetchAux_ok columns responses attempt retry hok]
    · rw [fetchAux_err columns responses attempt retry
        (by simpa using hok) (by omega)]
  | succ n ih =>
    intro attempt retry hr
    by_cases hok : httpOk (responses attempt).status = true
    · rw [fetchAux_ok columns responses attempt retry hok]
      omega
    · by_cases h5 : (responses attempt).status = SERVER_ERROR
      · rw [fetchAux_500_step columns responses attempt retry h5 (by omega)]
        have := ih (attempt + 1) (retry + 1) (by omega)
        omega
      · rw [fetchAux_err columns responses attempt retry
          (by simpa using hok) (by simp [h5])]
        omega

/-- C4: the retry policy of `TimeseriesSlice.fetch_`: at most 4 attempts in
total; four straight 500s produce the `{error, status: 500}` object after
exactly 4 attempts; after any run of consecutive 500s, a non-OK non-500
status is returned as `{error, status}` immediately (one more attempt, no
further retry), and an OK status ends the fetch successfully. -/
theorem fetch_retry_policy (columns : List String) (responses : Nat → RawHttp) :
    (sliceFetch columns responses).2 ≤ 4 ∧
    ((∀ i, i < 4 → (responses i).status = SERVER_ERROR) →
      sliceFetch columns responses =
        ({ data := none, columns := none, status := some SERVER_ERROR,
           error := true }, 4)) ∧
    (∀ k : Nat, k ≤ 3 → (∀ i, i < k → (responses i).status = SERVER_ERROR) →
      httpOk (responses k).status = false → (responses k).status ≠ SERVER_ERROR →
      sliceFetch columns responses =
        ({ data := none, columns := none, status := some (responses k).status,
           error := true }, k + 1)) ∧
    (∀ k : Nat, k ≤ 3 → (∀ i, i < k → (responses i).status = SERVER_ERROR) →
      httpOk (responses k).status = true →
      sliceFetch columns responses =
        ({ data := ((responses k).body).map (fun t => normalize t columns),
           columns := some columns, status := none, error := false }, k + 1)) := by
  have hmax : MAX_RETRIES = 3 := rfl
  refine ⟨?_, ?_, ?_, ?_⟩
  · have := fetchAux_attempts columns responses 3 0 0 (by omega)
    simpa [sliceFetch] using this
  · intro h
    rw [fetchAux_reach columns responses 3 (by omega) (fun i hi => h i (by omega))]
    have h3 := h 3 (by omega)
    rw [fetchAux_err columns responses 3 3 (by simp [h3, httpOk, SERVER_ERROR])
      (by omega)]
    rw [h3]
  · intro k hk hpre hnok hne
    rw [fetchAux_reach columns responses k (by omega) hpre]
    rw [fetchAux_err columns responses k k hnok (by simp [hne])]
  · intro k hk hpre hok
    rw [fetchAux_reach columns responses k (by omega) hpre]
    rw [fetchAux_ok columns responses k k hok]

/-- Witness for the C4 theorem: an environment that always answers 500
yields the error object after exactly 4 attempts, and one that answers 404
on the first attempt yields the error object after exactly 1 attempt. -/
theorem fetch_retry_policy_witness :
    sliceFetch ["revision", "avg"] (fun _ => { status := 500, body := none }) =
      ({ data := none, columns := none, status := some 500, error := true }, 4) ∧
    sliceFetch ["revision", "avg"] (fun _ => { status := 404, body := none }) =
      ({ data := none, columns := none, status := some 404, error := true }, 1) := by
  constructor
  · exact (fetch_retry_policy ["revision", "avg"]
      (fun _ => { status := 500, body := none })).2.1 (fun i _ => rfl)
  · exact (fetch_retry_policy ["revision", "avg"]
      (fun _ => { status := 404, body := none })).2.2.1 0 (by omega)
      (fun i hi => absurd hi (by omega)) (by decide) (by decide)

/-- C2: every requested column other than `revision` and `alert` whose
available-range intersection matches the request's duration is removed from
the planner's column set, and when only `revision` remains after the
removals, `getSlices_` returns an empty slice set. -/
theorem getSlices_drop_and_short_circuit (columns_ : List String)
    (revisionRange : JSRange) (avail : List (String × JSRange)) :
    (∀ col ∈ columns_, col ≠ "revision" → col ≠ "alert" →
      (∃ a, lookupMap avail col = some a ∧
        a.duration = revisionRange.duration) →
      col ∉ planColumns2 columns_ revisionRange avail) ∧
    (planColumns2 columns_ revisionRange avail = ["revision"] →
      getSlices_ columns_ revisionRange avail = []) := by
  constructor
  · intro col hmem hrev halert ⟨a, ha, hdur⟩ hcontra
    unfold planColumns2 at hcontra
    rw [List.mem_filter] at hcontra
    rcases hcontra with ⟨_, hcond⟩
    rw [if_neg hrev, if_neg halert, ha] at hcond
    simp [hdur] at hcond
  · intro h
    unfold getSlices_
    rw [h]
    rfl

/-- Witness for the C2 theorem: request `[revision, avg]` over `[0, 10]`
with `avg` fully cached as `[0, 10]`. -/
theorem getSlices_drop_and_short_circuit_witness :
    "avg" ∉ planColumns2 ["revision", "avg"] (JSRange.intv 0 10)
      [("avg", JSRange.intv 0 10)] ∧
    getSlices_ ["revision", "avg"] (JSRange.intv 0 10)
      [("avg", JSRange.intv 0 10)] = [] := by
  constructor
  · exact (getSlices_drop_and_short_circuit ["revision", "avg"]
      (JSRange.intv 0 10) [("avg", JSRange.intv 0 10)]).1 "avg"
      (by decide) (by decide) (by decide)
      ⟨JSRange.intv 0 10, by decide, by decide⟩
  · exact (getSlices_drop_and_short_circuit ["revision", "avg"]
      (JSRange.intv 0 10) [("avg", JSRange.intv 0 10)]).2 (by decide)

/-- C3: with a cached `missingTimestamp` strictly younger than the 2.8-day
retry window, the generator stops right after the cached portion — nothing
fetched, nothing written — while an older timestamp leaves the run exactly
as if the check were absent. -/
theorem generator_missing_suppression (g : GenInputs) (ts : Int)
    (hmt : g.cacheResult.missingTimestamp = some ts) :
    (g.now - MISSING_TIMESERIES_RETRY_MS < ts →
      generateResults g =
        GenOutput.mk (cachedEmissions g.cacheResult) 0 [] false) ∧
    (ts ≤ g.now - MISSING_TIMESERIES_RETRY_MS →
      generateResults g = generateResultsRest g) := by
  constructor
  · intro h
    have hs : suppressMissing g.cacheResult.missingTimestamp g.now = true := by
      rw [hmt]
      simpa [suppressMissing] using h
    unfold generateResults
    rw [hs]
    rfl
  · intro h
    have hs : suppressMissing g.cacheResult.missingTimestamp g.now = false := by
      rw [hmt]
      simp [suppressMissing]
      omega
    unfold generateResults
    rw [hs]
    rfl

/-- Witness for the C3 theorem at a concrete run: cached rows plus a fresh
`missingTimestamp`, a pending slice and a pending 404 response; the
suppressed run emits the cached snapshot only and consumes nothing. -/
theorem generator_missing_suppression_witness :
    generateResults
      (GenInputs.mk
        (CacheResult.mk (some [[("revision", 5), ("avg", 3)]])
          [("avg", JSRange.intv 0 10)] (some 1000))
        2000 (JSRange.intv 0 10) "db"
        [Slice.mk (JSRange.intv 0 10) ["revision", "avg"]]
        []
        [some (FetchResult.mk none none (some 404) true)]) =
      GenOutput.mk [Snapshot.mk (some [[("revision", 5), ("avg", 3)]]) none]
        0 [] false := by
  have h := (generator_missing_suppression
    (GenInputs.mk
      (CacheResult.mk (some [[("revision", 5), ("avg", 3)]])
        [("avg", JSRange.intv 0 10)] (some 1000))
      2000 (JSRange.intv 0 10) "db"
      [Slice.mk (JSRange.intv 0 10) ["revision", "avg"]]
      []
      [some (FetchResult.mk none none (some 404) true)]) 1000 rfl).1 (by decide)
  rw [h]
  rfl

theorem genCoreFold_append (rev : JSRange) (core : GenCore)
    (l1 l2 : List (Option FetchResult)) :
    genCoreFold rev core (l1 ++ l2) =
      genCoreFold rev (genCoreFold rev core l1) l2 := by
  unfold genCoreFold
  rw [List.foldl_append]

theorem genWritesFold_append (rev : JSRange) (now : Int) (core : GenCore)
    (l1 l2 : List (Option FetchResult)) :
    genWritesFold rev now core (l1 ++ l2) =
      genWritesFold rev now core l1 ++
        genWritesFold rev now (genCoreFold rev core l1) l2 := by
  induction l1 generalizing core with
  | nil => rfl
  | cons r rest ih =>
    rw [List.cons_append]
    rw [genWritesFold, genWritesFold]
    rw [ih (genCoreStep rev core r)]
    rw [List.append_assoc]
    rfl

/-- A 404 response without data leaves the loop state untouched. -/
theorem genCoreStep_404 (rev : JSRange) (core : GenCore) (r : FetchResult)
    (hd : r.data = none) (hst : r.status = some HTTP_NOT_FOUND) :
    genCoreStep rev core (some r) = core := by
  simp only [genCoreStep]
  by_cases he : core.errored
  · rw [if_pos he]
  · rw [if_neg he, if_pos ⟨hd, hst⟩]

/-- A 404 response without data schedules exactly the `missingTimestamp`
write (when the generator is still alive). -/
theorem genWriteOut_404 (now : Int) (core : GenCore) (r : FetchResult)
    (hd : r.data = none) (hst : r.status = some HTTP_NOT_FOUND)
    (he : core.errored = false) :
    genWriteOut now core (some r) = [WriteOp.missingTs now] := by
  simp only [genWriteOut]
  rw [if_neg (by rw [he]; exact Bool.false_ne_true), if_pos ⟨hd, hst⟩]

theorem generateResultsRest_emitted (g : GenInputs) :
    (generateResultsRest g).emitted =
      (genCoreFold g.revisionRange (genCore0 g) g.arrivals).emitted := rfl

theorem generateResultsRest_errored (g : GenInputs) :
    (generateResultsRest g).errored =
      (genCoreFold g.revisionRange (genCore0 g) g.arrivals).errored := rfl

/-- Every write scheduled during the loop ends up in the run's write list
(possibly followed by the final-result write). -/
theorem mem_generateResultsRest_writes (g : GenInputs) (w : WriteOp)
    (h : w ∈ genWritesFold g.revisionRange g.now (genCore0 g) g.arrivals) :
    w ∈ (generateResultsRest g).writes := by
  unfold generateResultsRest
  simp only []
  split
  · exact h
  · split
    · split
      · exact h
      · exact List.mem_append.mpr (Or.inl h)
    · exact h

/-- C5: a slice response with no data and HTTP status 404 schedules a
`missingTimestamp = now` cache write, contributes no snapshot (the run
emits exactly what it would emit without that response), and raises no
error to the consumer. -/
theorem generator_404_swallowed (g : GenInputs)
    (pre post : List (Option FetchResult)) (r : FetchResult)
    (harr : g.arrivals = pre ++ some r :: post)
    (hdata : r.data = none) (hstat : r.status = some HTTP_NOT_FOUND)
    (hsup : suppressMissing g.cacheResult.missingTimestamp g.now = false) :
    (generateResults g).emitted =
      (generateResults (GenInputs.mk g.cacheResult g.now g.revisionRange
        g.dbName g.slices g.peers (pre ++ post))).emitted ∧
    (generateResults g).errored =
      (generateResults (GenInputs.mk g.cacheResult g.now g.revisionRange
        g.dbName g.slices g.peers (pre ++ post))).errored ∧
    ((genCoreFold g.revisionRange (genCore0 g) pre).errored = false →
      WriteOp.missingTs g.now ∈ (generateResults g).writes) := by
  have hgen : ∀ g2 : GenInputs,
      suppressMissing g2.cacheResult.missingTimestamp g2.now = false →
      generateResults g2 = generateResultsRest g2 := by
    intro g2 h2
    unfold generateResults
    rw [h2]
    rfl
  have hsup2 : suppressMissing
      (GenInputs.mk g.cacheResult g.now g.revisionRange g.dbName g.slices
        g.peers (pre ++ post)).cacheResult.missingTimestamp
      (GenInputs.mk g.cacheResult g.now g.revisionRange g.dbName g.slices
        g.peers (pre ++ post)).now = false := hsup
  have hcore : genCoreFold g.revisionRange (genCore0 g) g.arrivals =
      genCoreFold g.revisionRange (genCore0 g) (pre ++ post) := by
    rw [harr, genCoreFold_append, genCoreFold_append]
    unfold genCoreFold
    rw [List.foldl_cons, genCoreStep_404 g.revisionRange _ r hdata hstat]
  refine ⟨?_, ?_, ?_⟩
  · rw [hgen g hsup, hgen _ hsup2]
    rw [generateResultsRest_emitted, generateResultsRest_emitted]
    rw [hcore]
    rfl
  · rw [hgen g hsup, hgen _ hsup2]
    rw [generateResultsRest_errored, generateResultsRest_errored]
    rw [hcore]
    rfl
  · intro herr
    rw [hgen g hsup]
    refine mem_generateResultsRest_writes g _ ?_
    rw [harr, genWritesFold_append]
    rw [genWritesFold]
    rw [genWriteOut_404 g.now _ r hdata hstat herr]
    simp

/-- Witness for the C5 theorem: a run whose only response is a data-less
404 object writes `missingTimestamp` and emits only the cached snapshot. -/
theorem generator_404_swallowed_witness :
    (generateResults (GenInputs.mk
      (CacheResult.mk (some [[("revision", 5), ("avg", 3)]])
        [("avg", JSRange.intv 0 10)] none)
      7777 (JSRange.intv 0 10) "db"
      [Slice.mk (JSRange.intv 0 10) ["revision", "avg"]] []
      [some (FetchResult.mk none none (some 404) true)])).emitted =
      (generateResults (GenInputs.mk
        (CacheResult.mk (some [[("revision", 5), ("avg", 3)]])
          [("avg", JSRange.intv 0 10)] none)
        7777 (JSRange.intv 0 10) "db"
        [Slice.mk (JSRange.intv 0 10) ["revision", "avg"]] []
        [])).emitted ∧
    WriteOp.missingTs 7777 ∈ (generateResults (GenInputs.mk
      (CacheResult.mk (some [[("revision", 5), ("avg", 3)]])
        [("avg", JSRange.intv 0 10)] none)
      7777 (JSRange.intv 0 10) "db"
      [Slice.mk (JSRange.intv 0 10) ["revision", "avg"]] []
      [some (FetchResult.mk none none (some 404) true)])).writes := by
  have h := generator_404_swallowed (GenInputs.mk
      (CacheResult.mk (some [[("revision", 5), ("avg", 3)]])
        [("avg", JSRange.intv 0 10)] none)
      7777 (JSRange.intv 0 10) "db"
      [Slice.mk (JSRange.intv 0 10) ["revision", "avg"]] []
      [some (FetchResult.mk none none (some 404) true)])
    [] [] (FetchResult.mk none none (some 404) true) rfl rfl rfl rfl
  exact ⟨h.1, h.2.2 rfl⟩

theorem coalesceStep_cols_subset (s : Slice) (st : CoalesceState) (u : Slice) :
    (coalesceStep s st u).cols ⊆ st.cols := by
  unfold coalesceStep
  by_cases hd : (s.revisionRange.findIntersection u.revisionRange).duration <
      s.revisionRange.duration
  · rw [if_pos hd]
    exact fun c h => h
  · rw [if_neg hd]
    show st.cols.filter _ ⊆ st.cols
    exact (List.filter_sublist _).subset

theorem coalesce_cols_subset (s : Slice) :
    ∀ (l : List Slice) (st : CoalesceState),
      (l.foldl (coalesceStep s) st).cols ⊆ st.cols := by
  intro l
  induction l with
  | nil => intro st; exact fun c h => h
  | cons u rest ih =>
    intro st
    rw [List.foldl_cons]
    exact fun c h => coalesceStep_cols_subset s st u (ih (coalesceStep s st u) h)

theorem coalesceStep_dropped_mono (s : Slice) (st : CoalesceState) (u : Slice)
    (h : st.dropped = true) : (coalesceStep s st u).dropped = true := by
  unfold coalesceStep
  by_cases hd : (s.revisionRange.findIntersection u.revisionRange).duration <
      s.revisionRange.duration
  · rw [if_pos hd]
    exact h
  · rw [if_neg hd]
    simp [h]

theorem coalesce_dropped_mono (s : Slice) :
    ∀ (l : List Slice) (st : CoalesceState), st.dropped = true →
      (l.foldl (coalesceStep s) st).dropped = true := by
  intro l
  induction l with
  | nil => intro st h; exact h
  | cons u rest ih =>
    intro st h
    rw [List.foldl_cons]
    exact ih (coalesceStep s st u) (coalesceStep_dropped_mono s st u h)

/-- Exactly when coalescing against one peer borrows that peer: the peer's
range covers the slice and they share a non-`revision` column at that
point. -/
theorem mem_coalesceStep_borrowed (s : Slice) (st : CoalesceState) (u t : Slice) :
    t ∈ (coalesceStep s st u).borrowed ↔
      t ∈ st.borrowed ∨
        (s.revisionRange.duration ≤
            (s.revisionRange.findIntersection u.revisionRange).duration ∧
          t = u ∧ ∃ c ∈ st.cols, ¬ c = "revision" ∧ c ∈ u.columns) := by
  unfold coalesceStep
  by_cases hd : (s.revisionRange.findIntersection u.revisionRange).duration <
      s.revisionRange.duration
  · rw [if_pos hd]
    constructor
    · exact Or.inl
    · rintro (h | ⟨h1, _, _⟩)
      · exact h
      · omega
  · rw [if_neg hd]
    simp only []
    by_cases hre : (st.cols.filter
        (fun c => ¬ c = "revision" ∧ c ∈ u.columns)).isEmpty
    · rw [if_pos hre]
      have hno : ∀ c ∈ st.cols, ¬ (¬ c = "revision" ∧ c ∈ u.columns) := by
        intro c hc hp
        have : c ∈ st.cols.filter (fun c => ¬ c = "revision" ∧ c ∈ u.columns) :=
          List.mem_filter.mpr ⟨hc, by simpa using hp⟩
        rw [List.isEmpty_iff] at hre
        rw [hre] at this
        simp at this
      constructor
      · exact Or.inl
      · rintro (h | ⟨_, _, c, hc, hcr, hct⟩)
        · exact h
        · exact absurd ⟨hcr, hct⟩ (hno c hc)
    · rw [if_neg hre]
      rw [mem_jsSetAdd]
      constructor
      · rintro (h | rfl)
        · exact Or.inl h
        · refine Or.inr ⟨by omega, rfl, ?_⟩
          have hne : st.cols.filter
              (fun c => ¬ c = "revision" ∧ c ∈ t.columns) ≠ [] := by
            intro hcontra
            rw [List.isEmpty_iff] at hre
            exact hre hcontra
          obtain ⟨c, hc⟩ := List.exists_mem_of_ne_nil _ hne
          rw [List.mem_filter] at hc
          exact ⟨c, hc.1, by simpa using hc.2⟩
      · rintro (h | ⟨_, rfl, c, hc, hcr, hct⟩)
        · exact Or.inl h
        · exact Or.inr rfl

/-- Which peers the whole coalescing pass of one slice borrows, by position:
peer `k` is borrowed exactly when it covers the slice and shares a
non-`revision` column with the slice's column set as pruned by the peers
before it. -/
theorem coalesce_borrowed_aux (s : Slice) :
    ∀ (l : List Slice) (st : CoalesceState) (t : Slice),
      t ∈ (l.foldl (coalesceStep s) st).borrowed ↔
        t ∈ st.borrowed ∨ ∃ k, ∃ hk : k < l.length,
          l.get ⟨k, hk⟩ = t ∧
          s.revisionRange.duration ≤
            (s.revisionRange.findIntersection t.revisionRange).duration ∧
          ∃ c ∈ ((l.take k).foldl (coalesceStep s) st).cols,
            ¬ c = "revision" ∧ c ∈ t.columns := by
  intro l
  induction l with
  | nil =>
    intro st t
    simp
  | cons u rest ih =>
    intro st t
    rw [List.foldl_cons, ih (coalesceStep s st u) t]
    constructor
    · rintro (hb | ⟨k, hk, hget, hdur, c, hc, hcr, hct⟩)
      · rw [mem_coalesceStep_borrowed] at hb
        rcases hb with hb | ⟨hdur, rfl, c, hc, hcr, hct⟩
        · exact Or.inl hb
        · exact Or.inr ⟨0, by simp, rfl, hdur, c, by simpa using hc, hcr, hct⟩
      · refine Or.inr ⟨k + 1, by simpa using hk, by simpa using hget, hdur,
          c, ?_, hcr, hct⟩
        rw [List.take_succ_cons, List.foldl_cons]
        exact hc
    · rintro (hb | ⟨k, hk, hget, hdur, c, hc, hcr, hct⟩)
      · exact Or.inl (by rw [mem_coalesceStep_borrowed]; exact Or.inl hb)
      · cases k with
        | zero =>
          left
          rw [mem_coalesceStep_borrowed]
          right
          have hgu : u = t := hget
          subst hgu
          exact ⟨hdur, rfl, c, by simpa using hc, hcr, hct⟩
        | succ j =>
          right
          refine ⟨j, by simpa using hk, by simpa using hget, hdur, c, ?_, hcr, hct⟩
          rw [List.take_succ_cons, List.foldl_cons] at hc
          exact hc

/-- A slice whose column set was shrunk to exactly `["revision"]` by the
pass has been deleted from the slice set. -/
theorem coalesce_shrink_dropped (s : Slice) :
    ∀ (l : List Slice) (st : CoalesceState),
      (l.foldl (coalesceStep s) st).cols = ["revision"] →
      st.cols ≠ ["revision"] →
      (l.foldl (coalesceStep s) st).dropped = true := by
  intro l
  induction l with
  | nil =>
    intro st h1 h2
    exact absurd h1 h2
  | cons u rest ih =>
    intro st h1 h2
    rw [List.foldl_cons] at h1 ⊢
    by_cases hc : (coalesceStep s st u).cols = ["revision"]
    · refine coalesce_dropped_mono s rest _ ?_
      unfold coalesceStep at hc ⊢
      by_cases hd : (s.revisionRange.findIntersection u.revisionRange).duration <
          s.revisionRange.duration
      · rw [if_pos hd] at hc ⊢
        exact absurd hc h2
      · rw [if_neg hd] at hc ⊢
        simp only [] at hc ⊢
        rw [hc]
        simp
    · exact ih (coalesceStep s st u) h1 hc

/-- C6 (amended): during coalescing, for every planned slice and every peer
slice whose revision range covers it, (1) no non-`revision` column of the
peer survives in the slice; (2) a peer is borrowed exactly when, at its
turn, it covers the slice and still shares a non-`revision` column with it
(so a covering peer with no shared column is NOT added to the borrowed
set); and (3) a slice whose column set shrank to just `revision` is removed
from the slice set. -/
theorem coalesce_spec (s : Slice) (others : List Slice) :
    (∀ t ∈ others,
      s.revisionRange.duration ≤
        (s.revisionRange.findIntersection t.revisionRange).duration →
      ∀ c ∈ (coalesceSlice s others).cols, c ≠ "revision" → c ∉ t.columns) ∧
    (∀ t : Slice, t ∈ (coalesceSlice s others).borrowed ↔
      ∃ k, ∃ hk : k < others.length, others.get ⟨k, hk⟩ = t ∧
        s.revisionRange.duration ≤
          (s.revisionRange.findIntersection t.revisionRange).duration ∧
        ∃ c ∈ coalesceColsAfter s others k, ¬ c = "revision" ∧ c ∈ t.columns) ∧
    ((coalesceSlice s others).cols = ["revision"] →
      s.columns ≠ ["revision"] → (coalesceSlice s others).dropped = true) := by
  refine ⟨?_, ?_, ?_⟩
  · intro t ht hdur c hcf hcr
    obtain ⟨l1, l2, heq⟩ := List.append_of_mem ht
    unfold coalesceSlice at hcf
    rw [heq, List.foldl_append, List.foldl_cons] at hcf
    have hsub := coalesce_cols_subset s l2
      (coalesceStep s (l1.foldl (coalesceStep s)
        (CoalesceState.mk s.columns [] false)) t) hcf
    unfold coalesceStep at hsub
    rw [if_neg (by omega)] at hsub
    rw [List.mem_filter] at hsub
    rcases hsub with ⟨_, hcond⟩
    simp only [decide_eq_true_eq] at hcond
    rcases hcond with h | h
    · exact absurd h hcr
    · exact h
  · intro t
    unfold coalesceSlice coalesceColsAfter coalesceSlice
    rw [coalesce_borrowed_aux]
    simp
  · intro h1 h2
    exact coalesce_shrink_dropped s others
      (CoalesceState.mk s.columns [] false) h1 h2

/-- C6 counterexample: a peer slice whose range covers the planned slice
but which shares no non-`revision` column is NOT added to the borrowed set,
although the claim as stated says every covering peer is. -/
theorem coalesce_borrow_counterexample :
    ((Slice.mk (JSRange.intv 0 10) ["revision", "avg"]).revisionRange.duration ≤
      ((Slice.mk (JSRange.intv 0 10) ["revision", "avg"]).revisionRange.findIntersection
        (Slice.mk (JSRange.intv 0 10) ["revision", "stddev"]).revisionRange).duration) ∧
    Slice.mk (JSRange.intv 0 10) ["revision", "stddev"] ∉
      (coalesceSlice (Slice.mk (JSRange.intv 0 10) ["revision", "avg"])
        [Slice.mk (JSRange.intv 0 10) ["revision", "stddev"]]).borrowed ∧
    (coalesceSlice (Slice.mk (JSRange.intv 0 10) ["revision", "avg"])
      [Slice.mk (JSRange.intv 0 10) ["revision", "stddev"]]).borrowed = [] := by
  refine ⟨by decide, by decide, by decide⟩

/-- Witness for the C6 theorem: a covering peer with the shared column
`avg` strips `avg` from the slice, is borrowed, and the slice (shrunk to
`revision` alone) is dropped. -/
theorem coalesce_spec_witness :
    ("avg" ∉ (coalesceSlice (Slice.mk (JSRange.intv 0 10) ["revision", "avg"])
      [Slice.mk (JSRange.intv 0 10) ["revision", "avg", "stddev"]]).cols) ∧
    (Slice.mk (JSRange.intv 0 10) ["revision", "avg", "stddev"] ∈
      (coalesceSlice (Slice.mk (JSRange.intv 0 10) ["revision", "avg"])
        [Slice.mk (JSRange.intv 0 10) ["revision", "avg", "stddev"]]).borrowed) ∧
    (coalesceSlice (Slice.mk (JSRange.intv 0 10) ["revision", "avg"])
      [Slice.mk (JSRange.intv 0 10) ["revision", "avg", "stddev"]]).dropped = true := by
  have h := coalesce_spec (Slice.mk (JSRange.intv 0 10) ["revision", "avg"])
    [Slice.mk (JSRange.intv 0 10) ["revision", "avg", "stddev"]]
  refine ⟨?_, ?_, ?_⟩
  · intro hmem
    exact h.1 (Slice.mk (JSRange.intv 0 10) ["revision", "avg", "stddev"])
      (by decide) (by decide) "avg" hmem (by decide) (by decide)
  · exact (h.2.1 (Slice.mk (JSRange.intv 0 10) ["revision", "avg", "stddev"])).mpr
      ⟨0, by decide, rfl, by decide, "avg", by decide, by decide, by decide⟩
  · exact h.2.2 (by decide) (by decide)

/-- Deleting one field does not change another field's value. -/
theorem keyD_deleteField_ne (d : Row) (k k' : String) (hne : k' ≠ k) :
    keyD (deleteField d k) k' = keyD d k' := by
  unfold keyD jsGet deleteField
  rw [find?_filter_key d k' (fun p => p.1 ≠ k) ?_]
  intro q hq
  have hqk : q.1 ≠ k := by rw [hq]; exact hne
  simpa using hqk

/-- The `alert` purge leaves every row's `revision` key unchanged. -/
theorem purgeAlerts_keys (rev : JSRange) (l : List Row) :
    (purgeAlerts rev l).map (fun r => keyD r "revision") =
      l.map (fun r => keyD r "revision") := by
  unfold purgeAlerts
  rw [List.map_map]
  apply List.map_congr_left
  intro d _
  by_cases h : rev.mem (keyD d "revision")
  · simp only [Function.comp, if_pos h]
    exact keyD_deleteField_ne d "alert" "revision" (by decide)
  · simp only [Function.comp, if_neg h]

/-- One loop iteration preserves sortedness of the merged rows and of every
emitted snapshot. -/
theorem genCoreStep_sorted (rev : JSRange) (core : GenCore)
    (r : Option FetchResult)
    (h1 : (core.mergedData.map (fun x => keyD x "revision")).Pairwise (· < ·))
    (h2 : ∀ snap ∈ core.emitted, ∀ d, snap.data = some d →
      (d.map (fun x => keyD x "revision")).Pairwise (· < ·)) :
    ((genCoreStep rev core r).mergedData.map
      (fun x => keyD x "revision")).Pairwise (· < ·) ∧
    (∀ snap ∈ (genCoreStep rev core r).emitted, ∀ d, snap.data = some d →
      (d.map (fun x => keyD x "revision")).Pairwise (· < ·)) := by
  cases r with
  | none => exact ⟨h1, h2⟩
  | some fr =>
    simp only [genCoreStep]
    by_cases he : core.errored
    · rw [if_pos he]
      exact ⟨h1, h2⟩
    · rw [if_neg he]
      by_cases h404 : fr.data = none ∧ fr.status = some HTTP_NOT_FOUND
      · rw [if_pos h404]
        exact ⟨h1, h2⟩
      · rw [if_neg h404]
        by_cases hcols : fr.columns = none
        · rw [if_pos hcols]
          exact ⟨h1, h2⟩
        · rw [if_neg hcols]
          by_cases hdata : fr.data = none
          · rw [if_pos hdata]
            exact ⟨h1, h2⟩
          · rw [if_neg hdata]
            simp only []
            have hm1 : (((if "alert" ∈ fr.columns.getD [] then
                purgeAlerts rev core.mergedData
                else core.mergedData)).map
                  (fun x => keyD x "revision")).Pairwise (· < ·) := by
              by_cases ha : "alert" ∈ fr.columns.getD []
              · rw [if_pos ha, purgeAlerts_keys]
                exact h1
              · rw [if_neg ha]
                exact h1
            have hm2 := mergeObjectArrays_sorted_all "revision"
              [(fr.data.getD []).filter (fun d => rev.mem (keyD d "revision"))]
              _ hm1
            refine ⟨hm2, ?_⟩
            intro snap hsnap d hd
            rcases List.mem_append.mp hsnap with hold | hnew
            · exact h2 snap hold d hd
            · rw [List.mem_singleton] at hnew
              subst hnew
              simp only [Option.some.injEq] at hd
              subst hd
              exact hm2

/-- The loop preserves sortedness of the merged rows and of every emitted
snapshot across any arrival list. -/
theorem genCoreFold_sorted (rev : JSRange) (results : List (Option FetchResult)) :
    ∀ core : GenCore,
      (core.mergedData.map (fun x => keyD x "revision")).Pairwise (· < ·) →
      (∀ snap ∈ core.emitted, ∀ d, snap.data = some d →
        (d.map (fun x => keyD x "revision")).Pairwise (· < ·)) →
      (∀ snap ∈ (genCoreFold rev core results).emitted, ∀ d, snap.data = some d →
        (d.map (fun x => keyD x "revision")).Pairwise (· < ·)) := by
  induction results with
  | nil => intro core _ h2; exact h2
  | cons r rest ih =>
    intro core h1 h2
    have hstep := genCoreStep_sorted rev core r h1 h2
    exact ih (genCoreStep rev core r) hstep.1 hstep.2

/-- C9: `mergeObjectArrays` keeps the target strictly sorted ascending by
the key field for any inputs, and consequently every snapshot the generator
emits has its rows strictly sorted ascending by `revision` (given the
cached rows are, as they come out of the store ordered by their `revision`
key). -/
theorem mergeObjectArrays_preserves_sorted :
    (∀ (key : String) (target : List Row) (arrays : List (List Row)),
      (target.map (fun r => keyD r key)).Pairwise (· < ·) →
      ((mergeObjectArrays key target arrays).map
        (fun r => keyD r key)).Pairwise (· < ·)) ∧
    (∀ g : GenInputs,
      (∀ d0, g.cacheResult.data = some d0 →
        (d0.map (fun r => keyD r "revision")).Pairwise (· < ·)) →
      ∀ snap ∈ (generateResults g).emitted, ∀ d, snap.data = some d →
        (d.map (fun r => keyD r "revision")).Pairwise (· < ·)) := by
  constructor
  · intro key target arrays h
    exact mergeObjectArrays_sorted_all key arrays target h
  · intro g hcache snap hsnap d hd
    have hcached : ∀ snap2 ∈ cachedEmissions g.cacheResult, ∀ d2,
        snap2.data = some d2 →
        (d2.map (fun r => keyD r "revision")).Pairwise (· < ·) := by
      intro snap2 hsnap2 d2 hd2
      unfold cachedEmissions at hsnap2
      cases hc : g.cacheResult.data with
      | none => rw [hc] at hsnap2; simp at hsnap2
      | some d0 =>
        rw [hc] at hsnap2
        rw [List.mem_singleton] at hsnap2
        subst hsnap2
        simp only [Option.some.injEq] at hd2
        subst hd2
        exact hcache d0 hc
    unfold generateResults at hsnap
    by_cases hs : suppressMissing g.cacheResult.missingTimestamp g.now = true
    · rw [if_pos hs] at hsnap
      exact hcached snap hsnap d hd
    · rw [if_neg hs] at hsnap
      rw [generateResultsRest_emitted] at hsnap
      refine genCoreFold_sorted g.revisionRange g.arrivals (genCore0 g)
        ?_ ?_ snap hsnap d hd
      · unfold genCore0
        cases hc : g.cacheResult.data with
        | none => simp
        | some d0 => simpa using hcache d0 hc
      · exact hcached

/-- Witness for the C9 theorem: merging two batches into a concretely
sorted target keeps it strictly sorted by `revision`. -/
theorem mergeObjectArrays_preserves_sorted_witness :
    ((mergeObjectArrays "revision"
      [[("revision", 1), ("avg", 7)], [("revision", 4), ("avg", 9)]]
      [[[("revision", 2), ("avg", 8)], [("revision", 1), ("stddev", 3)]]]).map
        (fun r => keyD r "revision")).Pairwise (· < ·) :=
  mergeObjectArrays_preserves_sorted.1 "revision"
    [[("revision", 1), ("avg", 7)], [("revision", 4), ("avg", 9)]]
    [[[("revision", 2), ("avg", 8)], [("revision", 1), ("stddev", 3)]]]
    (by simp [keyD, jsGet])

/-- A non-empty intersection with `[lo, hi]` is a non-empty closed
sub-interval of `[lo, hi]`. -/
theorem findIntersection_shape (a : JSRange) (lo hi : Int) (r : JSRange)
    (h : a.findIntersection (JSRange.intv lo hi) = r) (hne : r.isEmpty = false) :
    ∃ c d : Int, r = JSRange.intv c d ∧ lo ≤ c ∧ c ≤ d ∧ d ≤ hi := by
  cases a with
  | empty =>
    rw [← h] at hne
    simp [JSRange.findIntersection, JSRange.isEmpty] at hne
  | intv al ah =>
    simp only [JSRange.findIntersection] at h
    by_cases hcross : min ah hi < max al lo
    · rw [if_pos hcross] at h
      rw [← h] at hne
      simp [JSRange.isEmpty] at hne
    · rw [if_neg hcross] at h
      exact ⟨max al lo, min ah hi, h.symm, by omega, by omega, by omega⟩

/-- `firstOverlap` only produces non-empty sub-intervals of the request. -/
theorem firstOverlap_shape (lo hi : Int) :
    ∀ (ds : List JSRange) (r : JSRange),
      firstOverlap (JSRange.intv lo hi) ds = some r →
      ∃ c d : Int, r = JSRange.intv c d ∧ lo ≤ c ∧ c ≤ d ∧ d ≤ hi := by
  intro ds
  induction ds with
  | nil => intro r h; simp [firstOverlap] at h
  | cons d0 rest ih =>
    intro r h
    simp only [firstOverlap] at h
    by_cases he : (d0.findIntersection (JSRange.intv lo hi)).isEmpty
    · rw [if_pos he] at h
      exact ih r h
    · rw [if_neg he] at h
      simp only [Option.some.injEq] at h
      refine findIntersection_shape d0 lo hi r h ?_
      rw [← h]
      simpa using he

/-- Every range stored in `availableRangeByCol` is a non-empty closed
sub-interval of the request range. -/
theorem getAvail_shape (lo hi : Int)
    (rbc : List (String × Option (List JSRange))) (col : String) (a : JSRange)
    (h : lookupMap (getAvailableRangeByCol_ (JSRange.intv lo hi) rbc) col = some a) :
    ∃ c d : Int, a = JSRange.intv c d ∧ lo ≤ c ∧ c ≤ d ∧ d ≤ hi := by
  have hmem := lookupMap_mem _ _ _ h
  have main : ∀ (rbc : List (String × Option (List JSRange)))
      (acc : List (String × JSRange)),
      (∀ p ∈ acc, ∃ c d : Int, p.2 = JSRange.intv c d ∧ lo ≤ c ∧ c ≤ d ∧ d ≤ hi) →
      ∀ p ∈ rbc.foldl (fun acc q =>
        match q.2 with
        | none => acc
        | some ds =>
            match firstOverlap (JSRange.intv lo hi) ds with
            | some r => mapSet acc q.1 r
            | none => acc) acc,
        ∃ c d : Int, p.2 = JSRange.intv c d ∧ lo ≤ c ∧ c ≤ d ∧ d ≤ hi := by
    intro rbc
    induction rbc with
    | nil => intro acc hacc p hp; exact hacc p hp
    | cons q rest ih =>
      intro acc hacc p hp
      rw [List.foldl_cons] at hp
      refine ih _ ?_ p hp
      intro p2 hp2
      simp only [] at hp2
      cases hq : q.2 with
      | none =>
        rw [hq] at hp2
        exact hacc p2 hp2
      | some ds =>
        rw [hq] at hp2
        cases hfo : firstOverlap (JSRange.intv lo hi) ds with
        | none =>
          simp only [hfo] at hp2
          exact hacc p2 hp2
        | some r =>
          simp only [hfo] at hp2
          rcases mem_mapSet acc q.1 r p2.1 p2.2 hp2 with hin | heq
          · exact hacc _ hin
          · have hp2eq : p2.2 = r := heq
            obtain ⟨c, d, hcd, h1, h2, h3⟩ := firstOverlap_shape lo hi ds r hfo
            exact ⟨c, d, by rw [hp2eq, hcd], h1, h2, h3⟩
  exact main rbc [] (by simp) (col, a) hmem

/-- Any point of the common-availability intersection lies in every
remaining non-`revision` column's available range. -/
theorem commonLoop_mem (avail : List (String × JSRange)) :
    ∀ (cols : List String) (acc : JSRange) (x : Int),
      (commonLoop avail cols acc).mem x = true →
      acc.mem x = true ∧ ∀ col ∈ cols, col ≠ "revision" →
        ∃ a, lookupMap avail col = some a ∧ a.mem x = true := by
  intro cols
  induction cols with
  | nil =>
    intro acc x h
    exact ⟨h, by simp⟩
  | cons col rest ih =>
    intro acc x h
    unfold commonLoop at h
    by_cases hr : col = "revision"
    · rw [if_pos hr] at h
      obtain ⟨h1, h2⟩ := ih acc x h
      refine ⟨h1, ?_⟩
      intro c hc hcr
      rcases List.mem_cons.mp hc with rfl | hcrest
      · exact absurd hr hcr
      · exact h2 c hcrest hcr
    · rw [if_neg hr] at h
      cases hl : lookupMap avail col with
      | none =>
        rw [hl] at h
        simp [JSRange.mem] at h
      | some a =>
        rw [hl] at h
        obtain ⟨h1, h2⟩ := ih (acc.findIntersection a) x h
        rw [JSRange.mem_findIntersection] at h1
        rcases (Bool.and_eq_true _ _).mp h1 with ⟨hacc, ha⟩
        refine ⟨hacc, ?_⟩
        intro c hc hcr
        rcases List.mem_cons.mp hc with rfl | hcrest
        · exact ⟨a, hl, ha⟩
        · exact h2 c hcrest hcr

theorem mem_planColumns1 (columns_ : List String) (col : String)
    (h : col ∈ columns_) (hne : col ≠ "histogram") :
    col ∈ planColumns1 columns_ := by
  unfold planColumns1
  have h0 : col ∈ planColumns0 columns_ := (mem_jsSetOfList _ _).mpr h
  by_cases hh : "histogram" ∈ planColumns0 columns_
  · rw [if_pos hh]
    exact List.mem_filter.mpr ⟨h0, by simpa using hne⟩
  · rw [if_neg hh]
    exact h0

theorem revision_mem_planColumns2 (columns_ : List String) (rev : JSRange)
    (avail : List (String × JSRange)) (h : "revision" ∈ columns_) :
    "revision" ∈ planColumns2 columns_ rev avail := by
  unfold planColumns2
  refine List.mem_filter.mpr ⟨mem_planColumns1 columns_ "revision" h (by decide), ?_⟩
  simp

/-- A column surviving to `planColumns2` did not have a full-duration
available range; conversely a column missing from it (though requested and
not the histogram) was dropped because of one. -/
theorem dropped_reason (columns_ : List String) (rev : JSRange)
    (avail : List (String × JSRange)) (col : String)
    (h1 : col ∈ planColumns1 columns_)
    (h2 : col ∉ planColumns2 columns_ rev avail)
    (hrev : col ≠ "revision") (halert : col ≠ "alert") :
    ∃ a, lookupMap avail col = some a ∧ rev.duration = a.duration := by
  have hpred : ¬ ((if col = "revision" then true
      else if col = "alert" then true
      else
        match lookupMap avail col with
        | none => true
        | some a => !decide (rev.duration = a.duration)) = true) := by
    intro hp
    refine h2 ?_
    unfold planColumns2
    refine List.mem_filter.mpr ⟨h1, ?_⟩
    simpa using hp
  rw [if_neg hrev, if_neg halert] at hpred
  cases hl : lookupMap avail col with
  | none => rw [hl] at hpred; simp at hpred
  | some a =>
    rw [hl] at hpred
    simp only [Bool.not_eq_true'] at hpred
    refine ⟨a, rfl, ?_⟩
    by_contra hne
    exact hpred (by simpa using hne)

theorem two_mem_length_ne_one (l : List String) (a b : String)
    (ha : a ∈ l) (hb : b ∈ l) (hab : a ≠ b) : l.length ≠ 1 := by
  intro hlen
  cases l with
  | nil => simp at ha
  | cons x t =>
    have ht : t = [] := by
      simp only [List.length_cons] at hlen
      exact List.length_eq_zero.mp (by omega)
    subst ht
    rw [List.mem_singleton] at ha hb
    exact hab (ha.trans hb.symm)

theorem singleton_of_mem_length_one (l : List String) (a : String)
    (ha : a ∈ l) (hlen : l.length = 1) : l = [a] := by
  cases l with
  | nil => simp at ha
  | cons x t =>
    have ht : t = [] := by
      simp only [List.length_cons] at hlen
      exact List.length_eq_zero.mp (by omega)
    subst ht
    rw [List.mem_singleton] at ha
    rw [ha]

/-- C1 (amended): for a request whose columns include `revision`, the union
of a column's clipped available range and the planned slice ranges covers
the whole request range, for every requested column other than `revision`
and `alert` — except that for `histogram` this requires that the post-drop
column set is not just `["revision"]` (the all-cached short-circuit at line
341 discards the already-planned histogram slices). -/
theorem getSlices_coverage (columns_ : List String) (lo hi : Int)
    (rbc : List (String × Option (List JSRange)))
    (_hlh : lo ≤ hi) (hrevmem : "revision" ∈ columns_) :
    ∀ col ∈ columns_, col ≠ "revision" → col ≠ "alert" →
      (col = "histogram" →
        planColumns2 columns_ (JSRange.intv lo hi)
          (getAvailableRangeByCol_ (JSRange.intv lo hi) rbc) ≠ ["revision"]) →
      ∀ x : Int, lo ≤ x → x ≤ hi →
        (∃ a, lookupMap (getAvailableRangeByCol_ (JSRange.intv lo hi) rbc) col =
          some a ∧ a.mem x = true) ∨
        (∃ sl ∈ getSlices_ columns_ (JSRange.intv lo hi)
            (getAvailableRangeByCol_ (JSRange.intv lo hi) rbc),
          sl.revisionRange.mem x = true) := by
  intro col hcol hrev halert hhist x hx1 hx2
  set avail := getAvailableRangeByCol_ (JSRange.intv lo hi) rbc with havail
  have hrevp2 : "revision" ∈ planColumns2 columns_ (JSRange.intv lo hi) avail :=
    revision_mem_planColumns2 _ _ _ hrevmem
  by_cases hch : col = "histogram"
  · subst hch
    have hlen : (planColumns2 columns_ (JSRange.intv lo hi) avail).length ≠ 1 := by
      intro h1
      exact hhist rfl (singleton_of_mem_length_one _ _ hrevp2 h1)
    have hgs : getSlices_ columns_ (JSRange.intv lo hi) avail =
        planHistogramSlices columns_ (JSRange.intv lo hi) avail ++
          (JSRange.findDifference (JSRange.intv lo hi)
            (commonLoop avail (planColumns2 columns_ (JSRange.intv lo hi) avail)
              (JSRange.intv lo hi))).map
            (fun r => Slice.mk r (planColumns2 columns_ (JSRange.intv lo hi) avail)) := by
      unfold getSlices_
      simp only []
      rw [if_neg hlen]
    have hh0 : "histogram" ∈ planColumns0 columns_ := (mem_jsSetOfList _ _).mpr hcol
    cases hl : lookupMap avail "histogram" with
    | none =>
      right
      refine ⟨Slice.mk (JSRange.intv lo hi) ["revision", "histogram"], ?_, ?_⟩
      · rw [hgs]
        refine List.mem_append.mpr (Or.inl ?_)
        unfold planHistogramSlices
        rw [if_pos hh0, hl]
        simp
      · simp only [JSRange.mem]
        simp
        omega
    | some a =>
      rcases JSRange.findDifference_covers lo hi x a hx1 hx2 with hmem | ⟨p, hp, hpx⟩
      · exact Or.inl ⟨a, rfl, hmem⟩
      · right
        refine ⟨Slice.mk p ["revision", "histogram"], ?_, hpx⟩
        rw [hgs]
        refine List.mem_append.mpr (Or.inl ?_)
        unfold planHistogramSlices
        rw [if_pos hh0, hl]
        exact List.mem_map_of_mem _ hp
  · by_cases hdrop : col ∈ planColumns2 columns_ (JSRange.intv lo hi) avail
    · have hlen := two_mem_length_ne_one _ col "revision" hdrop hrevp2 hrev
      have hgs : getSlices_ columns_ (JSRange.intv lo hi) avail =
          planHistogramSlices columns_ (JSRange.intv lo hi) avail ++
            (JSRange.findDifference (JSRange.intv lo hi)
              (commonLoop avail (planColumns2 columns_ (JSRange.intv lo hi) avail)
                (JSRange.intv lo hi))).map
              (fun r => Slice.mk r (planColumns2 columns_ (JSRange.intv lo hi) avail)) := by
        unfold getSlices_
        simp only []
        rw [if_neg hlen]
      by_cases hmemR : (commonLoop avail
          (planColumns2 columns_ (JSRange.intv lo hi) avail)
          (JSRange.intv lo hi)).mem x = true
      · left
        obtain ⟨_, hall⟩ := commonLoop_mem avail _ _ x hmemR
        exact hall col hdrop hrev
      · rcases JSRange.findDifference_covers lo hi x
          (commonLoop avail (planColumns2 columns_ (JSRange.intv lo hi) avail)
            (JSRange.intv lo hi)) hx1 hx2 with hmem | ⟨p, hp, hpx⟩
        · exact absurd hmem hmemR
        · right
          refine ⟨Slice.mk p (planColumns2 columns_ (JSRange.intv lo hi) avail),
            ?_, hpx⟩
          rw [hgs]
          refine List.mem_append.mpr (Or.inr ?_)
          exact List.mem_map_of_mem _ hp
    · obtain ⟨a, ha, hdur⟩ := dropped_reason columns_ (JSRange.intv lo hi) avail col
        (mem_planColumns1 columns_ col hcol hch) hdrop hrev halert
      have ha2 : lookupMap (getAvailableRangeByCol_ (JSRange.intv lo hi) rbc) col =
          some a := by rw [← havail]; exact ha
      obtain ⟨c, d, rfl, h1, h2, h3⟩ := getAvail_shape lo hi rbc col a ha2
      left
      refine ⟨JSRange.intv c d, ha, ?_⟩
      simp only [JSRange.duration] at hdur
      simp only [JSRange.mem]
      simp
      omega

/-- C1 counterexample: request `columns = [revision, avg, histogram]` over
`[0, 100]` with `avg` fully cached and nothing cached for `histogram`: the
short-circuit discards the planned histogram slice, so `histogram` coverage
fails at `x = 50` (no available range, no slice). -/
theorem getSlices_coverage_counterexample :
    "histogram" ∈ ["revision", "avg", "histogram"] ∧
    "histogram" ≠ "revision" ∧ "histogram" ≠ "alert" ∧
    (0 : Int) ≤ 50 ∧ (50 : Int) ≤ 100 ∧
    getSlices_ ["revision", "avg", "histogram"] (JSRange.intv 0 100)
      (getAvailableRangeByCol_ (JSRange.intv 0 100)
        [("avg", some [JSRange.intv 0 100]), ("histogram", none)]) = [] ∧
    ¬ ((∃ a, lookupMap (getAvailableRangeByCol_ (JSRange.intv 0 100)
        [("avg", some [JSRange.intv 0 100]), ("histogram", none)]) "histogram" =
          some a ∧ a.mem 50 = true) ∨
      (∃ sl ∈ getSlices_ ["revision", "avg", "histogram"] (JSRange.intv 0 100)
          (getAvailableRangeByCol_ (JSRange.intv 0 100)
            [("avg", some [JSRange.intv 0 100]), ("histogram", none)]),
        sl.revisionRange.mem 50 = true)) := by
  refine ⟨by decide, by decide, by decide, by decide, by decide, by decide, ?_⟩
  rintro (⟨a, ha, _⟩ | ⟨sl, hsl, _⟩)
  · have : lookupMap (getAvailableRangeByCol_ (JSRange.intv 0 100)
        [("avg", some [JSRange.intv 0 100]), ("histogram", none)]) "histogram" =
        none := by decide
    rw [this] at ha
    cases ha
  · have : getSlices_ ["revision", "avg", "histogram"] (JSRange.intv 0 100)
        (getAvailableRangeByCol_ (JSRange.intv 0 100)
          [("avg", some [JSRange.intv 0 100]), ("histogram", none)]) = [] := by
      decide
    rw [this] at hsl
    simp at hsl

/-- Witness for the C1 theorem: request `[revision, avg]` over `[0, 100]`
with `avg` cached for `[0, 50]`; the point 75 is covered (by the planned
slice for `[50, 100]`). -/
theorem getSlices_coverage_witness :
    (∃ a, lookupMap (getAvailableRangeByCol_ (JSRange.intv 0 100)
      [("avg", some [JSRange.intv 0 50])]) "avg" = some a ∧ a.mem 75 = true) ∨
    (∃ sl ∈ getSlices_ ["revision", "avg"] (JSRange.intv 0 100)
        (getAvailableRangeByCol_ (JSRange.intv 0 100)
          [("avg", some [JSRange.intv 0 50])]),
      sl.revisionRange.mem 75 = true) :=
  getSlices_coverage ["revision", "avg"] 0 100 [("avg", some [JSRange.intv 0 50])]
    (by decide) (by decide) "avg" (by decide) (by decide) (by decide)
    (fun h => absurd h (by decide)) 75 (by decide) (by decide)

end Catapult
